import Mathlib

/-!
# Verification of the `GroupsMap` registry and hierarchy builder

Shallow embedding of `src/analytics/datavalidation/groupsmap.py`.

Modelling conventions:

* A Python 2 `dict` is modelled as an association list with
  insert-or-overwrite semantics; iteration over keys follows insertion
  order (the deterministic denotation of dictionary iteration used
  throughout this development).
* Group objects are modelled in an arena indexed by internal id: the
  registry's `_map` association list *is* the object heap, and a `children`
  list stores ids rather than object references.  All groups handled by
  `buildHierarchy` are `_map` values, which have pairwise distinct ids, so
  id references are faithful to object references.
* Python exceptions (`AttributeError` on a `None` parent, `ValueError`
  from `list.remove`, `CheckError` from type checks) are modelled by
  `Except` results; fuel exhaustion of the fueled recursions is a separate
  error value, distinguished from a genuine runtime error.
-/

namespace Pulsar

/-- Modelled from the spec: the `Group` (Node) class of
`analytics.datavalidation.group`, absent from the provided sources.
Per spec §3/§4.1 a Node has an immutable internal id, external id, display
strings, a mutable `parent` reference (an external id before resolution, an
internal id or none afterwards) and a mutable ordered `children` list.
`children` holds internal ids (arena reference model). -/
structure Group where
  gid : String
  externalId : String
  gname : String
  gdesc : String
  parent : Option String
  children : List String
deriving Repr, DecidableEq

/-- Modelled from the spec: `CheckError(expected, got)` of
`analytics.exceptions.checkerror`, the type-constraint error raised by
`assign` and the private traversal helpers (spec §7). -/
structure CheckError where
  expected : String
  got : String
deriving Repr, DecidableEq

/-- Association-list lookup: first entry whose key matches. -/
def alookup {α : Type} : List (String × α) → String → Option α
  | [], _ => none
  | (k, v) :: rest, key => if k = key then some v else alookup rest key

/-- Python dict assignment `d[key] = v`: overwrite in place if the key is
present, otherwise append (insertion order preserved). -/
def ainsert {α : Type} : List (String × α) → String → α → List (String × α)
  | [], key, v => [(key, v)]
  | (k, w) :: rest, key, v =>
    if k = key then (k, v) :: rest else (k, w) :: ainsert rest key v

/-- Python `del d[key]`: remove the entry with the given key. -/
def aerase {α : Type} : List (String × α) → String → List (String × α)
  | [], _ => []
  | (k, w) :: rest, key => if k = key then rest else (k, w) :: aerase rest key

/-- The `GroupsMap` registry: `_map` maps internal id to group, `_guidmap`
maps external id to internal id, where a stored `none` is the tombstone
written by `remove`. -/
structure GroupsMap where
  map : List (String × Group)
  guidmap : List (String × Option String)
deriving Repr, DecidableEq

namespace GroupsMap

/-- `reset()` / a fresh registry: both dictionaries empty. -/
def empty : GroupsMap := ⟨[], []⟩

/-- `has(id)`: `True if id is not None and id in self._map else False`. -/
def has (m : GroupsMap) (id : Option String) : Bool :=
  match id with
  | none => false
  | some i => (alookup m.map i).isSome

/-- `get(id)`: `self._map[id] if self.has(id) else None`. -/
def get (m : GroupsMap) (id : Option String) : Option Group :=
  match id with
  | none => none
  | some i => if m.has (some i) then alookup m.map i else none

/-- `assign(group)` after the type check has passed: no-op when the id is
already present, otherwise insert into both indices. -/
def assign (m : GroupsMap) (g : Group) : GroupsMap :=
  if m.has (some g.gid) then m
  else
    { map := ainsert m.map g.gid g
      guidmap := ainsert m.guidmap g.externalId (some g.gid) }

/-- A dynamically typed argument handed to `assign`: either an actual
`Group` instance or a value of some other runtime type (named by the string
Python's `str(type(x))` would produce). -/
inductive PyVal where
  | group (g : Group)
  | other (typeName : String)
deriving Repr, DecidableEq

/-- Whether a `PyVal` is a `Group` instance. -/
def PyVal.isGroup : PyVal → Bool
  | .group _ => true
  | .other _ => false

/-- `assign(group)` with its leading `type(group) is not g.Group` check:
returns the resulting registry and the raised `CheckError`, if any.  The
raise happens before any mutation, so on error the registry is returned
as it was. -/
def assignChecked (m : GroupsMap) (v : PyVal) : GroupsMap × Option CheckError :=
  match v with
  | .other t => (m, some ⟨"<type 'Group'>", t⟩)
  | .group g => (m.assign g, none)

/-- `remove(id)`: delete the id-index entry and tombstone the external-id
entry (`self._guidmap[group.getExternalId()] = None`). -/
def remove (m : GroupsMap) (id : String) : GroupsMap :=
  if m.has (some id) then
    match alookup m.map id with
    | some g =>
      { map := aerase m.map id
        guidmap := ainsert m.guidmap g.externalId none }
    | none => m
  else m

/-- `guid(id)`: look the external id up in `_guidmap`; a tombstoned entry
yields `None` just like an absent one. -/
def guid (m : GroupsMap) (id : Option String) : Option String :=
  match id with
  | none => none
  | some i =>
    match alookup m.guidmap i with
    | some v => v
    | none => none

/-- `isEmpty()`. -/
def isEmpty (m : GroupsMap) : Bool := m.map.length = 0

/-- `keys()`: the guids in `_map`, in insertion order. -/
def keysList (m : GroupsMap) : List String := m.map.map Prod.fst

/-- `values()`: the groups in `_map`, in insertion order. -/
def valuesList (m : GroupsMap) : List Group := m.map.map Prod.snd

/-- The reserved sentinel id used by `unknownGroup`. -/
def unknownId : String := "6120-31c2-4177-ad03-6d93a3a87976-unknown_id"

/-- The sentinel group `Group(guid, guid, "Unknown Group", "Unknown Group",
None)` constructed by `unknownGroup`. -/
def unknownNode : Group :=
  ⟨unknownId, unknownId, "Unknown Group", "Unknown Group", none, []⟩

/-- `unknownGroup()`: create, register and return the sentinel group on
first call; return the registered one afterwards. -/
def unknownGroup (m : GroupsMap) : Option Group × GroupsMap :=
  if m.has (some unknownId) then (m.get (some unknownId), m)
  else (some unknownNode, m.assign unknownNode)

/-- `updateParentIdsToGuids()`: replace every group's parent field by
`guid(parent)` (which is `none` for an unknown or absent external id). -/
def updateParentIdsToGuids (m : GroupsMap) : GroupsMap :=
  { m with map := m.map.map (fun kg => (kg.1, { kg.2 with parent := m.guid kg.2.parent })) }

end GroupsMap

/-! ## The hierarchy builder (`buildHierarchy` and its private helpers) -/

/-- Lookup in the parent-bucket dictionary `pmap`, whose keys are resolved
parent ids or `none`. -/
def plookup : List (Option String × List String) → Option String → Option (List String)
  | [], _ => none
  | (k, v) :: rest, key => if k = key then some v else plookup rest key

/-- `if pid not in pmap: pmap[pid] = []` followed by `pmap[pid].append(e)`. -/
def pappend : List (Option String × List String) → Option String → String →
    List (Option String × List String)
  | [], key, e => [(key, [e])]
  | (k, v) :: rest, key, e =>
    if k = key then (k, v ++ [e]) :: rest else (k, v) :: pappend rest key e

/-- One step of the bucket pass: compute the group's effective parent
bucket key (its parent id when that id is registered, else `none`), append
it to the candidate roots when the key is `none`, and bucket it. -/
def bucketStep (m : GroupsMap)
    (acc : List (Option String × List String) × List String) (key : String) :
    List (Option String × List String) × List String :=
  match m.get (some key) with
  | none => acc
  | some g =>
    let pid := if m.has g.parent then g.parent else none
    let roots := if pid = none then acc.2 ++ [key] else acc.2
    (pappend acc.1 pid key, roots)

/-- Bucket pass of `buildHierarchy`: iterate the registry keys in insertion
order, bucketing every group under its effective parent and collecting the
`none`-bucket members as candidate roots. -/
def bucketPass (m : GroupsMap) : List (Option String × List String) × List String :=
  m.keysList.foldl (bucketStep m) ([], [])

/-- Assignment pass of `buildHierarchy`: every group's children become the
bucket list keyed by its own id (empty when absent). -/
def assignChildrenPass (m : GroupsMap) (pmap : List (Option String × List String)) :
    List (String × Group) :=
  m.map.map (fun kg => (kg.1, { kg.2 with children := (plookup pmap (some kg.1)).getD [] }))

/-- `_collectTree(array, root)`, fueled: a childless group returns without
being appended; otherwise the group is appended and the
`for child in root.getChildren()` loop descends into each child (a fold
over a snapshot of the list — children lists are not mutated during the
reachability pass).  `none` is fuel exhaustion (Python's
`RecursionError`); fuel bounds only the recursion depth, as the Python
stack does. -/
def collectTree : Nat → List (String × Group) → List String → String → Option (List String)
  | 0, _, _, _ => none
  | Nat.succ f, store, arr, rid =>
    match alookup store rid with
    | none => some arr
    | some g =>
      if g.children.isEmpty then some arr
      else
        g.children.foldl
          (fun acc c =>
            match acc with
            | none => none
            | some arr2 => collectTree f store arr2 c)
          (some (arr ++ [rid]))

/-- The `for root in roots: self._collectTree(valid, root)` loop. -/
def collectRoots : Nat → List (String × Group) → List String → List String →
    Option (List String)
  | _, _, arr, [] => some arr
  | f, store, arr, r :: rs =>
    match collectTree f store arr r with
    | none => none
    | some arr2 => collectRoots f store arr2 rs

/-- `cycles = list(set(self.values()) - set(valid))`: the registry values
not collected as valid, in registry order (the deterministic denotation of
the set difference used by this development). -/
def cyclesList (store : List (String × Group)) (valid : List String) : List String :=
  (store.map Prod.fst).filter (fun k => !(valid.contains k))

/-- Result of a fueled traversal: `fuelOut` models a Python
`RecursionError`, `pyError` a genuine runtime error (`AttributeError` from
dereferencing a `None`/absent parent, `ValueError` from `list.remove`). -/
inductive TravErr where
  | fuelOut
  | pyError
deriving Repr, DecidableEq

/-- State threaded through `_traverseCycle`: the object heap `_map`, the
`roots` collector and the visited dictionary `vlist` (which the source
shares across calls through a mutable default argument). -/
structure TState where
  store : List (String × Group)
  roots : List String
  vlist : List String
deriving Repr, DecidableEq

/-- In-place mutation of the group object stored under a key. -/
def storeUpdate (store : List (String × Group)) (k : String) (f : Group → Group) :
    List (String × Group) :=
  store.map (fun kg => if kg.1 = k then (kg.1, f kg.2) else kg)

mutual

/-- `_traverseCycle(collector, element, vlist)`, fueled.  A childless
element returns immediately; a revisited element is cut: it is removed from
its parent's live children list (via `self.get(element.getParent())`, a
`pyError` when the parent is `None` or unregistered), its parent is set to
`None` and it is appended to the collector; otherwise the element is marked
visited and the walk descends into its children. -/
def traverse : Nat → TState → String → Except TravErr TState
  | 0, _, _ => .error .fuelOut
  | Nat.succ f, S, eid =>
    match alookup S.store eid with
    | none => .error .pyError
    | some g =>
      if g.children.isEmpty then .ok S
      else if S.vlist.contains eid then
        match g.parent with
        | none => .error .pyError
        | some pid =>
          match alookup S.store pid with
          | none => .error .pyError
          | some pg =>
            if pg.children.contains eid then
              let store1 := storeUpdate S.store pid
                (fun p => { p with children := p.children.erase eid })
              let store2 := storeUpdate store1 eid (fun e => { e with parent := none })
              .ok { store := store2, roots := S.roots ++ [eid], vlist := S.vlist }
            else .error .pyError
      else travLoop f { S with vlist := S.vlist ++ [eid] } eid 0

/-- The `for child in element.getChildren()` loop: Python iterates the live
list by index, re-reading it after each step, so removing the current child
during the recursive call shifts later siblings down and skips the next
one. -/
def travLoop : Nat → TState → String → Nat → Except TravErr TState
  | 0, _, _, _ => .error .fuelOut
  | Nat.succ f, S, eid, i =>
    match alookup S.store eid with
    | none => .error .pyError
    | some g =>
      if h : i < g.children.length then
        match traverse f S (g.children.get ⟨i, h⟩) with
        | .error e => .error e
        | .ok S2 => travLoop f S2 eid (i + 1)
      else .ok S

end

/-- `for cycle in cycles: self._traverseCycle(roots, cycle)` — the visited
dictionary (in `TState`) persists across the top-level calls, faithfully to
the source's mutable default argument. -/
def cycleLoop : Nat → TState → List String → Except TravErr TState
  | _, S, [] => .ok S
  | f, S, c :: cs =>
    match traverse f S c with
    | .error e => .error e
    | .ok S2 => cycleLoop f S2 cs

/-- Modelled from the spec: step 5 of the algorithm requires "a visited set
scoped to this single walk", i.e. each top-level cycle-breaking call starts
from a freshly initialized empty visited set (the source instead reuses one
mutable default-argument dictionary; spec §9 calls that a latent defect). -/
def cycleLoopFresh : Nat → TState → List String → Except TravErr TState
  | _, S, [] => .ok S
  | f, S, c :: cs =>
    match traverse f { S with vlist := [] } c with
    | .error e => .error e
    | .ok S2 => cycleLoopFresh f S2 cs

/-- Final pass of `buildHierarchy`: `self._map = {}` followed by
`self._map[root.getId()] = root` for each collected root. -/
def rebuildLoop : List (String × Group) → List (String × Group) → List String →
    Except TravErr (List (String × Group))
  | _, acc, [] => .ok acc
  | store, acc, r :: rs =>
    match alookup store r with
    | none => .error .pyError
    | some g => rebuildLoop store (ainsert acc g.gid g) rs

/-- Fuel ample for every fueled recursion inside `buildHierarchy`: the
recursions consume at most one unit per visited node or sibling step, and
each walk marks each node at most once. -/
def buildFuel (m : GroupsMap) : Nat := (m.map.length + 2) * (m.map.length + 2)

namespace GroupsMap

/-- The object heap and candidate-root list after the bucket and
assignment passes of `buildHierarchy`. -/
def hierState (m : GroupsMap) : List (String × Group) × List String :=
  let pr := bucketPass m
  (assignChildrenPass m pr.1, pr.2)

/-- The `valid` collection after the reachability pass of
`buildHierarchy`. -/
def validOf (m : GroupsMap) : Option (List String) :=
  let st := m.hierState
  collectRoots (buildFuel m) st.1 [] st.2

/-- The whole of `buildHierarchy`, with the source's shared visited
dictionary (empty at entry: a first call in a fresh process).  Returns the
rebuilt registry together with the final object heap: after the rebuild the
id index holds only roots, while non-root objects stay alive through their
parent's children list, i.e. through the heap. -/
def buildHierarchyFull (m : GroupsMap) :
    Except TravErr (GroupsMap × List (String × Group)) :=
  let st := m.hierState
  match collectRoots (buildFuel m) st.1 [] st.2 with
  | none => .error .fuelOut
  | some valid =>
    match cycleLoop (buildFuel m) ⟨st.1, st.2, []⟩ (cyclesList st.1 valid) with
    | .error e => .error e
    | .ok S =>
      match rebuildLoop S.store [] S.roots with
      | .error e => .error e
      | .ok newMap => .ok ({ m with map := newMap }, S.store)

/-- The registry view of `buildHierarchyFull`: what `self` holds after
`buildHierarchy` returns. -/
def buildHierarchyE (m : GroupsMap) : Except TravErr GroupsMap :=
  (m.buildHierarchyFull).map Prod.fst

/-- Modelled from the spec: `buildHierarchy` as specified, identical to
`buildHierarchyFull` except that every top-level cycle-breaking walk
receives a freshly initialized visited set (spec §4.2 step 5 and §9). -/
def buildHierarchyFreshFull (m : GroupsMap) :
    Except TravErr (GroupsMap × List (String × Group)) :=
  let st := m.hierState
  match collectRoots (buildFuel m) st.1 [] st.2 with
  | none => .error .fuelOut
  | some valid =>
    match cycleLoopFresh (buildFuel m) ⟨st.1, st.2, []⟩ (cyclesList st.1 valid) with
    | .error e => .error e
    | .ok S =>
      match rebuildLoop S.store [] S.roots with
      | .error e => .error e
      | .ok newMap => .ok ({ m with map := newMap }, S.store)

/-- Registry view of the spec-modelled fresh-visited-set build. -/
def buildHierarchyFreshE (m : GroupsMap) : Except TravErr GroupsMap :=
  (m.buildHierarchyFreshFull).map Prod.fst

end GroupsMap

/-- Construction over an input sequence: assign every record's group into a
fresh registry, in order. -/
def assignAll (gs : List Group) : GroupsMap :=
  gs.foldl GroupsMap.assign GroupsMap.empty

/-- The full construction pipeline: assign-all, translate parent ids, build
the hierarchy. -/
def pipeline (gs : List Group) : Except TravErr GroupsMap :=
  ((assignAll gs).updateParentIdsToGuids).buildHierarchyE

/-- Effective parent of a node in a post-assignment heap: its raw parent id
when that id is registered, else `none` (the bucket key of the bucket
pass). -/
def effParent (store : List (String × Group)) (x : String) : Option String :=
  match (alookup store x).bind Group.parent with
  | some p => if (alookup store p).isSome then some p else none
  | none => none

/-- Whether the effective-parent chain from a node reaches a none-parent
root within the given number of steps. -/
def escapes : Nat → List (String × Group) → String → Bool
  | 0, _, _ => false
  | Nat.succ f, store, x =>
    match effParent store x with
    | none => true
    | some p => escapes f store p

/-- A cycle participant in the sense of the spec: a node whose ancestry
loops back on itself without ever reaching a none-parent root — its
effective-parent chain does not reach a root within `|store| + 1` steps
(an escaping chain visits pairwise distinct registered nodes, so any
escape happens within that bound). -/
def cycleParticipant (store : List (String × Group)) (x : String) : Bool :=
  !(escapes (store.length + 1) store x)

/-- The ids of the groups a foldl over the input sequence would insert, in
registry insertion order (first occurrence of each id). -/
def insertionOrderIds (gs : List Group) : List String :=
  gs.foldl (fun acc g => if g.gid ∈ acc then acc else acc ++ [g.gid]) []

/-! ## Association-list lemmas -/

theorem alookup_ainsert_self {α : Type} (l : List (String × α)) (k : String) (v : α) :
    alookup (ainsert l k v) k = some v := by
  induction l with
  | nil => simp [ainsert, alookup]
  | cons hd tl ih =>
    by_cases h : hd.1 = k
    · simp [ainsert, alookup, h]
    · simp [ainsert, alookup, h, ih]

theorem alookup_isSome_iff {α : Type} (l : List (String × α)) (k : String) :
    (alookup l k).isSome = true ↔ k ∈ l.map Prod.fst := by
  induction l with
  | nil => simp [alookup]
  | cons hd tl ih =>
    by_cases h : hd.1 = k
    · simp [alookup, h]
    · simp [alookup, h, ih, Ne.symm h]

theorem ainsert_keys_of_absent {α : Type} (l : List (String × α)) (k : String) (v : α)
    (h : alookup l k = none) :
    (ainsert l k v).map Prod.fst = l.map Prod.fst ++ [k] := by
  induction l with
  | nil => simp [ainsert]
  | cons hd tl ih =>
    by_cases hk : hd.1 = k
    · simp [alookup, hk] at h
    · simp [alookup, hk] at h
      simp [ainsert, hk, ih h]

theorem ainsert_length_of_absent {α : Type} (l : List (String × α)) (k : String) (v : α)
    (h : alookup l k = none) :
    (ainsert l k v).length = l.length + 1 := by
  have := ainsert_keys_of_absent l k v h
  have h2 : ((ainsert l k v).map Prod.fst).length = (l.map Prod.fst ++ [k]).length := by
    rw [this]
  simpa using h2

theorem alookup_aerase_of_nodup {α : Type} (l : List (String × α)) (k : String)
    (h : (l.map Prod.fst).Nodup) : alookup (aerase l k) k = none := by
  induction l with
  | nil => simp [aerase, alookup]
  | cons hd tl ih =>
    simp only [List.map_cons, List.nodup_cons] at h
    by_cases hk : hd.1 = k
    · subst hk
      have : ∀ x ∈ tl.map Prod.fst, x ≠ hd.1 := fun x hx => by
        intro hcon; exact h.1 (hcon ▸ hx)
      simp only [aerase, if_pos rfl]
      cases he : alookup tl hd.1 with
      | none => exact he
      | some v =>
        exfalso
        have : (alookup tl hd.1).isSome = true := by rw [he]; rfl
        rw [alookup_isSome_iff] at this
        exact h.1 this
    · simp only [aerase, if_neg hk, alookup, if_neg hk]
      exact ih h.2

theorem alookup_none_of_not_mem {α : Type} (l : List (String × α)) (k : String)
    (h : k ∉ l.map Prod.fst) : alookup l k = none := by
  cases he : alookup l k with
  | none => rfl
  | some v =>
    exfalso
    have : (alookup l k).isSome = true := by rw [he]; rfl
    rw [alookup_isSome_iff] at this
    exact h this

theorem alookup_none_of_has_false (m : GroupsMap) (k : String)
    (h : m.has (some k) = false) : alookup m.map k = none := by
  cases he : alookup m.map k with
  | none => rfl
  | some v =>
    exfalso
    have : m.has (some k) = true := by simp [GroupsMap.has, he]
    rw [h] at this
    exact Bool.false_ne_true this

theorem assign_noop_of_has (m : GroupsMap) (g : Group)
    (h : m.has (some g.gid) = true) : m.assign g = m := by
  simp [GroupsMap.assign, h]

theorem assign_eq_of_has_false (m : GroupsMap) (g : Group)
    (h : m.has (some g.gid) = false) :
    m.assign g = ⟨ainsert m.map g.gid g, ainsert m.guidmap g.externalId (some g.gid)⟩ := by
  simp only [GroupsMap.assign]
  rw [if_neg (by simp [h])]

/-! ## C6: duplicate `assign` keeps the first-inserted node -/

/-- C6: for every registry and any two groups with the same internal id,
`assign(n1)` then `assign(n2)` leaves the registry exactly as it was after
`assign(n1)` — the second assign is a no-op on both indices — and when the
id was free beforehand the id index maps it to `n1`, so the external-id
index reflects `n2` only insofar as `n1` already established it. -/
theorem C6_assign_duplicate_id (m : GroupsMap) (n1 n2 : Group)
    (hid : n2.gid = n1.gid) :
    (m.assign n1).assign n2 = m.assign n1 ∧
    (m.has (some n1.gid) = false →
      alookup ((m.assign n1).assign n2).map n1.gid = some n1) := by
  have hafter : (m.assign n1).has (some n1.gid) = true := by
    by_cases h : m.has (some n1.gid) = true
    · simp [GroupsMap.assign, h]
    · rw [assign_eq_of_has_false m n1 (by simpa using h)]
      simp [GroupsMap.has, alookup_ainsert_self]
  have hnoop : (m.assign n1).assign n2 = m.assign n1 :=
    assign_noop_of_has (m.assign n1) n2 (by rw [hid]; exact hafter)
  refine ⟨hnoop, fun h => ?_⟩
  rw [hnoop, assign_eq_of_has_false m n1 h]
  exact alookup_ainsert_self _ _ _

/-- Witness for C6 on a concrete registry: two distinct groups sharing the
id `g1`. -/
theorem C6_assign_duplicate_id_witness :
    (GroupsMap.empty.assign ⟨"g1", "e1", "first", "", none, []⟩).assign
        ⟨"g1", "e2", "second", "", none, []⟩ =
      GroupsMap.empty.assign ⟨"g1", "e1", "first", "", none, []⟩ ∧
    alookup ((GroupsMap.empty.assign ⟨"g1", "e1", "first", "", none, []⟩).assign
        ⟨"g1", "e2", "second", "", none, []⟩).map "g1" =
      some ⟨"g1", "e1", "first", "", none, []⟩ := by
  have h := C6_assign_duplicate_id GroupsMap.empty ⟨"g1", "e1", "first", "", none, []⟩
    ⟨"g1", "e2", "second", "", none, []⟩ rfl
  exact ⟨h.1, h.2 rfl⟩

/-! ## C7: `remove` tombstones the external-id entry -/

/-- C7: removing a held node deletes its id-index entry while the
external-id index keeps a tombstone (an entry set to none, not deleted),
so `guid` of its external id answers none; a later successful `assign` of
another node with the same external id restores a correct mapping. -/
theorem C7_remove_tombstones (m : GroupsMap) (n : Group)
    (hn : alookup m.map n.gid = some n) (hnd : (m.map.map Prod.fst).Nodup) :
    (m.remove n.gid).has (some n.gid) = false ∧
    alookup (m.remove n.gid).guidmap n.externalId = some none ∧
    (m.remove n.gid).guid (some n.externalId) = none ∧
    ∀ n2 : Group, (m.remove n.gid).has (some n2.gid) = false →
      ((m.remove n.gid).assign n2).guid (some n2.externalId) = some n2.gid := by
  have hhas : m.has (some n.gid) = true := by simp [GroupsMap.has, hn]
  have hrm : m.remove n.gid =
      ⟨aerase m.map n.gid, ainsert m.guidmap n.externalId none⟩ := by
    simp [GroupsMap.remove, hhas, hn]
  refine ⟨?_, ?_, ?_, ?_⟩
  · rw [hrm]
    simp [GroupsMap.has, alookup_aerase_of_nodup _ _ hnd]
  · rw [hrm]
    exact alookup_ainsert_self _ _ _
  · rw [hrm]
    simp [GroupsMap.guid, alookup_ainsert_self]
  · intro n2 h2
    simp [GroupsMap.assign, h2, GroupsMap.guid, alookup_ainsert_self]

/-- Witness for C7: a one-node registry, its node removed, then a different
node with the same external id assigned. -/
theorem C7_remove_tombstones_witness :
    ((GroupsMap.empty.assign ⟨"g1", "e1", "n", "", none, []⟩).remove "g1").guid
        (some "e1") = none ∧
    (((GroupsMap.empty.assign ⟨"g1", "e1", "n", "", none, []⟩).remove "g1").assign
        ⟨"g2", "e1", "n2", "", none, []⟩).guid (some "e1") = some "g2" := by
  have h := C7_remove_tombstones
    (GroupsMap.empty.assign ⟨"g1", "e1", "n", "", none, []⟩)
    ⟨"g1", "e1", "n", "", none, []⟩ (by decide) (by decide)
  exact ⟨h.2.2.1, h.2.2.2 ⟨"g2", "e1", "n2", "", none, []⟩ (by decide)⟩

/-! ## C8: `unknownGroup` is idempotent -/

/-- C8: on a registry free of the reserved sentinel id, the first
`unknownGroup()` call grows the id index by exactly one and registers the
sentinel; the second call returns the identical group and leaves the
registry untouched. -/
theorem unknownGroup_of_has (m : GroupsMap)
    (h : m.has (some GroupsMap.unknownId) = true) :
    m.unknownGroup = (m.get (some GroupsMap.unknownId), m) := by
  simp [GroupsMap.unknownGroup, h]

theorem unknownGroup_of_has_false (m : GroupsMap)
    (h : m.has (some GroupsMap.unknownId) = false) :
    m.unknownGroup = (some GroupsMap.unknownNode, m.assign GroupsMap.unknownNode) := by
  simp only [GroupsMap.unknownGroup]
  rw [if_neg (by simp [h])]

theorem C8_unknownGroup_idempotent (m : GroupsMap)
    (h : m.has (some GroupsMap.unknownId) = false) :
    (m.unknownGroup).2.map.length = m.map.length + 1 ∧
    (m.unknownGroup).2.has (some GroupsMap.unknownId) = true ∧
    ((m.unknownGroup).2.unknownGroup).2 = (m.unknownGroup).2 ∧
    ((m.unknownGroup).2.unknownGroup).1 = (m.unknownGroup).1 := by
  have hlk : alookup m.map GroupsMap.unknownId = none := alookup_none_of_has_false m _ h
  have hu1 : m.unknownGroup = (some GroupsMap.unknownNode, m.assign GroupsMap.unknownNode) :=
    unknownGroup_of_has_false m h
  have hassign : m.assign GroupsMap.unknownNode =
      ⟨ainsert m.map GroupsMap.unknownId GroupsMap.unknownNode,
        ainsert m.guidmap GroupsMap.unknownId (some GroupsMap.unknownId)⟩ :=
    assign_eq_of_has_false m GroupsMap.unknownNode h
  have hhas2 : (m.unknownGroup).2.has (some GroupsMap.unknownId) = true := by
    rw [hu1]
    show (m.assign GroupsMap.unknownNode).has (some GroupsMap.unknownId) = true
    rw [hassign]
    simp [GroupsMap.has, alookup_ainsert_self]
  refine ⟨?_, hhas2, ?_, ?_⟩
  · rw [hu1]
    show (m.assign GroupsMap.unknownNode).map.length = m.map.length + 1
    rw [hassign]
    exact ainsert_length_of_absent _ _ _ hlk
  · rw [unknownGroup_of_has _ hhas2]
  · rw [unknownGroup_of_has _ hhas2]
    show (m.unknownGroup).2.get (some GroupsMap.unknownId) = (m.unknownGroup).1
    rw [hu1]
    show (m.assign GroupsMap.unknownNode).get (some GroupsMap.unknownId) =
      some GroupsMap.unknownNode
    rw [hassign]
    simp [GroupsMap.get, GroupsMap.has, alookup_ainsert_self]

/-- Witness for C8 on the empty registry. -/
theorem C8_unknownGroup_idempotent_witness :
    (GroupsMap.empty.unknownGroup).2.map.length = GroupsMap.empty.map.length + 1 ∧
    ((GroupsMap.empty.unknownGroup).2.unknownGroup).2 = (GroupsMap.empty.unknownGroup).2 := by
  have h := C8_unknownGroup_idempotent GroupsMap.empty (by decide)
  exact ⟨h.1, h.2.2.1⟩

/-! ## C9: the `assign` type check -/

/-- C9: `assign` raises its type-constraint error exactly when the argument
is not a Group instance, and the raise happens before any mutation, so an
erroring call leaves both indices exactly as they were. -/
theorem C9_assign_type_check (m : GroupsMap) (v : GroupsMap.PyVal) :
    ((m.assignChecked v).2.isSome ↔ v.isGroup = false) ∧
    (v.isGroup = false → (m.assignChecked v).1 = m) := by
  cases v with
  | group g => simp [GroupsMap.assignChecked, GroupsMap.PyVal.isGroup]
  | other t => simp [GroupsMap.assignChecked, GroupsMap.PyVal.isGroup]

/-- Witness for C9: a non-Group argument errors and leaves the registry
unchanged. -/
theorem C9_assign_type_check_witness :
    (GroupsMap.empty.assignChecked (.other "<type 'int'>")).1 = GroupsMap.empty ∧
    (GroupsMap.empty.assignChecked (.other "<type 'int'>")).2.isSome = true := by
  have h := C9_assign_type_check GroupsMap.empty (.other "<type 'int'>")
  exact ⟨h.2 rfl, h.1.mpr rfl⟩

/-! ## C2: iteration order and determinism -/

theorem assignAll_keys_aux (gs : List Group) :
    ∀ m : GroupsMap, (gs.foldl GroupsMap.assign m).keysList =
      gs.foldl (fun acc g => if g.gid ∈ acc then acc else acc ++ [g.gid]) m.keysList := by
  induction gs with
  | nil => intro m; rfl
  | cons g gs ih =>
    intro m
    have hkeys : (m.assign g).keysList =
        if g.gid ∈ m.keysList then m.keysList else m.keysList ++ [g.gid] := by
      by_cases h : m.has (some g.gid) = true
      · have hmem : g.gid ∈ m.keysList := by
          rw [GroupsMap.keysList, ← alookup_isSome_iff]
          simpa [GroupsMap.has] using h
        rw [assign_noop_of_has m g h, if_pos hmem]
      · have hno : alookup m.map g.gid = none :=
          alookup_none_of_has_false m _ (by simpa using h)
        have hmem : g.gid ∉ m.keysList := by
          rw [GroupsMap.keysList, ← alookup_isSome_iff]
          simp [hno]
        rw [assign_eq_of_has_false m g (by simpa using h), if_neg hmem]
        show (ainsert m.map g.gid g).map Prod.fst = m.map.map Prod.fst ++ [g.gid]
        exact ainsert_keys_of_absent m.map g.gid g hno
    simp only [List.foldl_cons]
    rw [ih (m.assign g), hkeys]

/-- C2: construction is a pure function of the input sequence — the
registry's key iteration order is the insertion order of first-inserted
ids, and two pipeline runs (assign-all, `updateParentIdsToGuids`,
`buildHierarchy`) over equal input sequences produce identical registries,
including the identical choice of promoted cycle members. -/
theorem C2_pipeline_deterministic (gs1 gs2 : List Group) (h : gs1 = gs2) :
    (assignAll gs1).keysList = insertionOrderIds gs1 ∧
    pipeline gs1 = pipeline gs2 := by
  subst h
  refine ⟨?_, rfl⟩
  have := assignAll_keys_aux gs1 GroupsMap.empty
  simpa [assignAll, insertionOrderIds, GroupsMap.empty, GroupsMap.keysList] using this

/-! ## Characterization of the bucket and assignment passes -/

/-- The bucket stored under a key of `pmap` (empty when absent). -/
def bucketAt (pm : List (Option String × List String)) (p : Option String) : List String :=
  (plookup pm p).getD []

/-- The bucket key the bucket pass computes for a registry key: `some pid`
when the key is registered (`pid` none for an unregistered or none
parent), `none` when the key itself is not registered. -/
def rawPid (m : GroupsMap) (k : String) : Option (Option String) :=
  (m.get (some k)).map (fun g => if m.has g.parent then g.parent else none)

/-- The children list of a node in a heap (empty when the node is
absent). -/
def childrenAt (store : List (String × Group)) (x : String) : List String :=
  ((alookup store x).map Group.children).getD []

theorem pappend_bucketAt (pm : List (Option String × List String)) (p0 : Option String)
    (e : String) (p : Option String) :
    bucketAt (pappend pm p0 e) p =
      if p = p0 then bucketAt pm p ++ [e] else bucketAt pm p := by
  induction pm with
  | nil =>
    by_cases h : p0 = p
    · subst h
      simp [pappend, bucketAt, plookup]
    · rw [if_neg (fun hc => h hc.symm)]
      simp [pappend, bucketAt, plookup, h]
  | cons hd tl ih =>
    by_cases hk : hd.1 = p0
    · rw [pappend, if_pos hk]
      by_cases hp : hd.1 = p
      · rw [if_pos (hp ▸ hk.symm ▸ rfl : p = p0)]
        simp [bucketAt, plookup, hp]
      · rw [if_neg (fun hc : p = p0 => hp (hk.trans hc.symm))]
        simp [bucketAt, plookup, hp]
    · rw [pappend, if_neg hk]
      by_cases hp : hd.1 = p
      · rw [if_neg (fun hc : p = p0 => hk (hp.trans hc))]
        simp [bucketAt, plookup, hp]
      · have hlhs : bucketAt ((hd.1, hd.2) :: pappend tl p0 e) p =
            bucketAt (pappend tl p0 e) p := by
          simp [bucketAt, plookup, hp]
        have hrhs : bucketAt ((hd.1, hd.2) :: tl) p = bucketAt tl p := by
          simp [bucketAt, plookup, hp]
        rw [show ((hd.1, hd.2) : Option String × List String) = hd from rfl] at hlhs hrhs
        rw [hlhs, hrhs, ih]

theorem bucketStep_roots (m : GroupsMap)
    (acc : List (Option String × List String) × List String) (key : String) :
    (bucketStep m acc key).2 =
      if rawPid m key = some none then acc.2 ++ [key] else acc.2 := by
  cases hget : m.get (some key) with
  | none => simp [bucketStep, rawPid, hget]
  | some g =>
    simp only [bucketStep, rawPid, hget, Option.map_some']
    by_cases hp : (if m.has g.parent then g.parent else none) = none
    · simp [hp]
    · simp [hp]

theorem bucketStep_bucketAt (m : GroupsMap)
    (acc : List (Option String × List String) × List String) (key : String)
    (p : Option String) :
    bucketAt (bucketStep m acc key).1 p =
      if rawPid m key = some p then bucketAt acc.1 p ++ [key] else bucketAt acc.1 p := by
  cases hget : m.get (some key) with
  | none => simp [bucketStep, rawPid, hget]
  | some g =>
    simp only [bucketStep, rawPid, hget, Option.map_some']
    show bucketAt (pappend acc.1 (if m.has g.parent then g.parent else none) key) p = _
    rw [pappend_bucketAt]
    by_cases hp : p = (if m.has g.parent then g.parent else none)
    · rw [if_pos hp, if_pos (by rw [hp])]
    · rw [if_neg hp, if_neg (fun hc => hp (Option.some.inj hc).symm)]

theorem bucketFold_roots (m : GroupsMap) (ks : List String) :
    ∀ acc, (ks.foldl (bucketStep m) acc).2 =
      acc.2 ++ ks.filter (fun k => rawPid m k = some none) := by
  induction ks with
  | nil => intro acc; simp
  | cons k ks ih =>
    intro acc
    rw [List.foldl_cons, ih, bucketStep_roots]
    by_cases h : rawPid m k = some none
    · simp [h, List.filter_cons]
    · simp [h, List.filter_cons]

theorem bucketFold_bucketAt (m : GroupsMap) (ks : List String) :
    ∀ acc p, bucketAt (ks.foldl (bucketStep m) acc).1 p =
      bucketAt acc.1 p ++ ks.filter (fun k => rawPid m k = some p) := by
  induction ks with
  | nil => intro acc p; simp
  | cons k ks ih =>
    intro acc p
    rw [List.foldl_cons, ih, bucketStep_bucketAt]
    by_cases h : rawPid m k = some p
    · simp [h, List.filter_cons]
    · simp [h, List.filter_cons]

theorem rootsOf_spec (m : GroupsMap) :
    (bucketPass m).2 = m.keysList.filter (fun k => rawPid m k = some none) := by
  rw [bucketPass, bucketFold_roots]
  rfl

theorem bucketPass_bucketAt (m : GroupsMap) (p : Option String) :
    bucketAt (bucketPass m).1 p = m.keysList.filter (fun k => rawPid m k = some p) := by
  rw [bucketPass, bucketFold_bucketAt]
  rfl

theorem alookup_map_val {α β : Type} (l : List (String × α)) (f : String → α → β)
    (k : String) :
    alookup (l.map (fun kg => (kg.1, f kg.1 kg.2))) k = (alookup l k).map (f k) := by
  induction l with
  | nil => rfl
  | cons hd tl ih =>
    by_cases h : hd.1 = k
    · simp [alookup, h]
    · simp [alookup, h, ih]

theorem hierStore_alookup (m : GroupsMap) (x : String) :
    alookup m.hierState.1 x = (alookup m.map x).map
      (fun g => { g with
        children := m.keysList.filter (fun k => rawPid m k = some (some x)) }) := by
  show alookup (assignChildrenPass m (bucketPass m).1) x = _
  have := alookup_map_val m.map
    (fun k g => { g with children := (plookup (bucketPass m).1 (some k)).getD [] }) x
  rw [assignChildrenPass, this]
  rw [show ((plookup (bucketPass m).1 (some x)).getD [] : List String) =
    bucketAt (bucketPass m).1 (some x) from rfl, bucketPass_bucketAt]

theorem hierStore_keys (m : GroupsMap) :
    m.hierState.1.map Prod.fst = m.keysList := by
  show (assignChildrenPass m (bucketPass m).1).map Prod.fst = _
  simp [assignChildrenPass, GroupsMap.keysList]

theorem mem_childrenAt_hier (m : GroupsMap) (x c : String) :
    c ∈ childrenAt m.hierState.1 x ↔
      ((alookup m.map x).isSome ∧ c ∈ m.keysList ∧ rawPid m c = some (some x)) := by
  unfold childrenAt
  rw [hierStore_alookup]
  cases h : alookup m.map x with
  | none => simp
  | some g => simp [List.mem_filter]

theorem effParent_hier (m : GroupsMap) (x : String) (g : Group)
    (h : alookup m.map x = some g) :
    rawPid m x = some (effParent m.hierState.1 x) := by
  have hget : m.get (some x) = some g := by
    simp [GroupsMap.get, GroupsMap.has, h]
  unfold rawPid effParent
  rw [hierStore_alookup, h, hget]
  cases hp : g.parent with
  | none => simp [GroupsMap.has, hp]
  | some p =>
    have htr : (alookup m.hierState.1 p).isSome = (alookup m.map p).isSome := by
      rw [hierStore_alookup]
      cases alookup m.map p <;> simp
    by_cases hreg : (alookup m.map p).isSome
    · simp [GroupsMap.has, hp, hreg, htr]
    · simp only [Option.map_some']
      rw [show ({ g with parent := g.parent, children := _ } : Group).parent
        = g.parent from rfl]
      simp [GroupsMap.has, hp, htr, Bool.eq_false_iff.mpr hreg]

/-! ## Upward effective-parent chains -/

/-- An upward effective-parent chain from a node to a none-parent root:
`UpChain store x l` says `l` is `x` followed by the effective-parent chain
of `x`, ending at a node whose effective parent is none. -/
inductive UpChain (store : List (String × Group)) : String → List String → Prop where
  | root (x : String) (h : effParent store x = none) : UpChain store x [x]
  | step (x p : String) (l : List String) (h : effParent store x = some p)
      (hp : UpChain store p l) : UpChain store x (x :: l)

theorem upchain_unique {store : List (String × Group)} :
    ∀ {x : String} {l1 : List String}, UpChain store x l1 →
      ∀ {l2 : List String}, UpChain store x l2 → l1 = l2 := by
  intro x l1 h1
  induction h1 with
  | root x h =>
    intro l2 h2
    cases h2 with
    | root => rfl
    | step a p l h' hp' => rw [h] at h'; exact absurd h' (by simp)
  | step x p l h hp ih =>
    intro l2 h2
    cases h2 with
    | root a h' => rw [h] at h'; exact absurd h' (by simp)
    | step a p' l' h' hp' =>
      rw [h] at h'
      obtain rfl : p = p' := Option.some.inj h'
      rw [ih hp']

theorem upchain_mem {store : List (String × Group)} :
    ∀ {p : String} {l : List String}, UpChain store p l →
      ∀ {y : String}, y ∈ l → ∃ l', UpChain store y l' ∧ l'.length ≤ l.length := by
  intro p l h
  induction h with
  | root x hx =>
    intro y hy
    rw [List.mem_singleton] at hy
    subst hy
    exact ⟨[y], .root y hx, le_refl _⟩
  | step x p l h hp ih =>
    intro y hy
    rcases List.mem_cons.mp hy with rfl | hy'
    · exact ⟨y :: l, .step y p l h hp, le_refl _⟩
    · obtain ⟨l', h', hlen⟩ := ih hy'
      exact ⟨l', h', hlen.trans (by simp)⟩

theorem upchain_nodup {store : List (String × Group)} :
    ∀ {x : String} {l : List String}, UpChain store x l → l.Nodup := by
  intro x l h
  induction h with
  | root => simp
  | step x p l h hp ih =>
    refine List.nodup_cons.mpr ⟨?_, ih⟩
    intro hx
    obtain ⟨l', h', hlen⟩ := upchain_mem hp hx
    have heq : l' = x :: l := upchain_unique h' (UpChain.step x p l h hp)
    rw [heq] at hlen
    simp at hlen

theorem effParent_some_mem {store : List (String × Group)} {x p : String}
    (h : effParent store x = some p) : p ∈ store.map Prod.fst := by
  unfold effParent at h
  cases hb : (alookup store x).bind Group.parent with
  | none =>
    rw [hb] at h
    replace h : (none : Option String) = some p := h
    exact absurd h (by simp)
  | some q =>
    rw [hb] at h
    replace h : (if (alookup store q).isSome = true then some q else none) = some p := h
    by_cases hr : (alookup store q).isSome = true
    · rw [if_pos hr] at h
      obtain rfl : q = p := Option.some.inj h
      exact (alookup_isSome_iff store _).mp hr
    · rw [if_neg hr] at h
      exact absurd h (by simp)

theorem upchain_subset_keys {store : List (String × Group)} :
    ∀ {x : String} {l : List String}, UpChain store x l → x ∈ store.map Prod.fst →
      ∀ z ∈ l, z ∈ store.map Prod.fst := by
  intro x l h
  induction h with
  | root x hx =>
    intro hxk z hz
    rw [List.mem_singleton] at hz
    subst hz
    exact hxk
  | step x p l h hp ih =>
    intro hxk z hz
    rcases List.mem_cons.mp hz with rfl | hz'
    · exact hxk
    · exact ih (effParent_some_mem h) z hz'

theorem nodup_subset_length {α : Type} [DecidableEq α] {l k : List α}
    (hn : l.Nodup) (hs : ∀ z ∈ l, z ∈ k) : l.length ≤ k.length := by
  have h1 : l.toFinset.card = l.length := List.toFinset_card_of_nodup hn
  have h2 : l.toFinset ⊆ k.toFinset := by
    intro a ha
    rw [List.mem_toFinset] at ha ⊢
    exact hs a ha
  calc l.length = l.toFinset.card := h1.symm
    _ ≤ k.toFinset.card := Finset.card_le_card h2
    _ ≤ k.length := List.toFinset_card_le k

theorem escapes_of_upchain {store : List (String × Group)} :
    ∀ {x : String} {l : List String}, UpChain store x l →
      escapes l.length store x = true := by
  intro x l h
  induction h with
  | root x hx => simp [escapes, hx]
  | step x p l h hp ih => simpa [escapes, h] using ih

theorem escapes_mono {store : List (String × Group)} :
    ∀ {n n' : Nat} {x : String}, escapes n store x = true → n ≤ n' →
      escapes n' store x = true := by
  intro n
  induction n with
  | zero => intro n' x h _; simp [escapes] at h
  | succ f ih =>
    intro n' x h hle
    cases n' with
    | zero => omega
    | succ f' =>
      simp only [escapes] at h ⊢
      cases hp : effParent store x with
      | none => simp
      | some p =>
        rw [hp] at h
        exact ih h (by omega)

theorem upchain_of_escapes {store : List (String × Group)} :
    ∀ {n : Nat} {x : String}, escapes n store x = true → ∃ l, UpChain store x l := by
  intro n
  induction n with
  | zero => intro x h; simp [escapes] at h
  | succ f ih =>
    intro x h
    simp only [escapes] at h
    cases hp : effParent store x with
    | none => exact ⟨[x], .root x hp⟩
    | some p =>
      rw [hp] at h
      obtain ⟨l, hl⟩ := ih h
      exact ⟨x :: l, .step x p l hp hl⟩

theorem cycleParticipant_false_iff {store : List (String × Group)} (x : String)
    (hx : x ∈ store.map Prod.fst) :
    cycleParticipant store x = false ↔ ∃ l, UpChain store x l := by
  unfold cycleParticipant
  constructor
  · intro h
    have he : escapes (store.length + 1) store x = true := by
      cases he : escapes (store.length + 1) store x
      · rw [he] at h; simp at h
      · rfl
    exact upchain_of_escapes he
  · rintro ⟨l, hl⟩
    have hlen : l.length ≤ store.length := by
      have := nodup_subset_length (upchain_nodup hl) (upchain_subset_keys hl hx)
      simpa using this
    have he := escapes_mono (escapes_of_upchain hl)
      (show l.length ≤ store.length + 1 by omega)
    simp [he]

/-! ## Correctness of the reachability pass -/

/-- The loop body of `_collectTree`'s child iteration, as folded over the
children snapshot. -/
def cstep (f : Nat) (store : List (String × Group)) :
    Option (List String) → String → Option (List String) :=
  fun acc c =>
    match acc with
    | none => none
    | some arr2 => collectTree f store arr2 c

theorem collectTree_succ (f : Nat) (store : List (String × Group))
    (arr : List String) (rid : String) :
    collectTree (Nat.succ f) store arr rid =
      match alookup store rid with
      | none => some arr
      | some g =>
        if g.children.isEmpty then some arr
        else g.children.foldl (cstep f store) (some (arr ++ [rid])) := rfl

theorem cstep_fold_none (f : Nat) (store : List (String × Group)) :
    ∀ cs : List String, cs.foldl (cstep f store) none = none := by
  intro cs
  induction cs with
  | nil => rfl
  | cons c cs ih => simpa [cstep] using ih

theorem cstep_fold_prefix (f : Nat) (store : List (String × Group))
    (hT : ∀ arr rid v, collectTree f store arr rid = some v → arr <+: v) :
    ∀ (cs : List String) (acc v : List String),
      cs.foldl (cstep f store) (some acc) = some v → acc <+: v := by
  intro cs
  induction cs with
  | nil =>
    intro acc v h
    rw [List.foldl_nil] at h
    exact (Option.some.inj h) ▸ List.prefix_refl _
  | cons c cs ihc =>
    intro acc v h
    rw [List.foldl_cons] at h
    replace h : cs.foldl (cstep f store) (collectTree f store acc c) = some v := h
    cases hstep : collectTree f store acc c with
    | none =>
      rw [hstep, cstep_fold_none] at h
      exact absurd h (by simp)
    | some acc2 =>
      rw [hstep] at h
      exact (hT acc c acc2 hstep).trans (ihc acc2 v h)

theorem collectTree_prefix :
    ∀ (f : Nat) (store : List (String × Group)) (arr : List String) (rid : String)
      (v : List String), collectTree f store arr rid = some v → arr <+: v := by
  intro f
  induction f with
  | zero =>
    intro store arr rid v h
    simp [collectTree] at h
  | succ f ih =>
    intro store arr rid v h
    rw [collectTree_succ] at h
    cases halk : alookup store rid with
    | none =>
      rw [halk] at h
      exact (Option.some.inj h) ▸ List.prefix_refl _
    | some g =>
      rw [halk] at h
      replace h : (if g.children.isEmpty = true then some arr
          else g.children.foldl (cstep f store) (some (arr ++ [rid]))) = some v := h
      by_cases hemp : g.children.isEmpty
      · rw [if_pos hemp] at h
        exact (Option.some.inj h) ▸ List.prefix_refl _
      · rw [if_neg hemp] at h
        have := cstep_fold_prefix f store (ih store) g.children (arr ++ [rid]) v h
        exact (List.prefix_append arr [rid]).trans this

theorem cstep_fold_decomp (f : Nat) (store : List (String × Group)) :
    ∀ (cs : List String) (acc v : List String),
      cs.foldl (cstep f store) (some acc) = some v →
      ∀ c ∈ cs, ∃ a b, collectTree f store a c = some b ∧ b <+: v := by
  intro cs
  induction cs with
  | nil => intro acc v _ c hc; simp at hc
  | cons c1 cs ihc =>
    intro acc v h c hc
    rw [List.foldl_cons] at h
    replace h : cs.foldl (cstep f store) (collectTree f store acc c1) = some v := h
    cases hstep : collectTree f store acc c1 with
    | none =>
      rw [hstep, cstep_fold_none] at h
      exact absurd h (by simp)
    | some acc2 =>
      rw [hstep] at h
      rcases List.mem_cons.mp hc with rfl | hc'
      · exact ⟨acc, acc2, hstep,
          cstep_fold_prefix f store (fun a r w => collectTree_prefix f store a r w) cs acc2 v h⟩
      · exact ihc acc2 v h c hc'

theorem collectTree_sound (store : List (String × Group))
    (HS : ∀ p g, alookup store p = some g → ∀ c ∈ g.children,
      effParent store c = some p) :
    ∀ (f : Nat) (arr : List String) (rid : String) (v : List String),
      (∃ l, UpChain store rid l) → collectTree f store arr rid = some v →
      ∀ x ∈ v, x ∈ arr ∨
        ((∃ l, UpChain store x l) ∧ childrenAt store x ≠ []) := by
  intro f
  induction f with
  | zero =>
    intro arr rid v _ h
    simp [collectTree] at h
  | succ f ih =>
    intro arr rid v hent h
    rw [collectTree_succ] at h
    cases halk : alookup store rid with
    | none =>
      rw [halk] at h
      intro x hx
      exact Or.inl ((Option.some.inj h) ▸ hx)
    | some g =>
      rw [halk] at h
      replace h : (if g.children.isEmpty = true then some arr
          else g.children.foldl (cstep f store) (some (arr ++ [rid]))) = some v := h
      by_cases hemp : g.children.isEmpty
      · rw [if_pos hemp] at h
        intro x hx
        exact Or.inl ((Option.some.inj h) ▸ hx)
      · rw [if_neg hemp] at h
        have hchildren : ∀ c ∈ g.children, ∃ l, UpChain store c l := by
          intro c hc
          obtain ⟨l, hl⟩ := hent
          exact ⟨c :: l, .step c rid l (HS rid g halk c hc) hl⟩
        have hacc0 : ∀ x ∈ arr ++ [rid], x ∈ arr ∨
            ((∃ l, UpChain store x l) ∧ childrenAt store x ≠ []) := by
          intro x hx
          rcases List.mem_append.mp hx with hx' | hx'
          · exact Or.inl hx'
          · rw [List.mem_singleton] at hx'
            subst hx'
            refine Or.inr ⟨hent, ?_⟩
            simp only [childrenAt, halk, Option.map_some', Option.getD_some]
            intro hnil
            rw [hnil] at hemp
            exact hemp rfl
        have hfold : ∀ (cs : List String), (∀ c ∈ cs, ∃ l, UpChain store c l) →
            ∀ acc, (∀ x ∈ acc, x ∈ arr ∨
              ((∃ l, UpChain store x l) ∧ childrenAt store x ≠ [])) →
            cs.foldl (cstep f store) (some acc) = some v →
            ∀ x ∈ v, x ∈ arr ∨
              ((∃ l, UpChain store x l) ∧ childrenAt store x ≠ []) := by
          intro cs
          induction cs with
          | nil =>
            intro _ acc hacc hf x hx
            rw [List.foldl_nil] at hf
            exact hacc x ((Option.some.inj hf) ▸ hx)
          | cons c cs ihc =>
            intro hcs acc hacc hf
            rw [List.foldl_cons] at hf
            replace hf : cs.foldl (cstep f store) (collectTree f store acc c) = some v := hf
            cases hstep : collectTree f store acc c with
            | none =>
              rw [hstep, cstep_fold_none] at hf
              exact absurd hf (by simp)
            | some acc2 =>
              rw [hstep] at hf
              have hacc2 : ∀ x ∈ acc2, x ∈ arr ∨
                  ((∃ l, UpChain store x l) ∧ childrenAt store x ≠ []) := by
                intro x hx
                rcases ih acc c acc2 (hcs c (by simp)) hstep x hx with hmem | hP
                · exact hacc x hmem
                · exact Or.inr hP
              exact ihc (fun c' hc' => hcs c' (by simp [hc'])) acc2 hacc2 hf
        exact hfold g.children hchildren (arr ++ [rid]) hacc0 h

/-- Descent through children links: `DownPath store r x` says `x` is
reachable from `r` by repeatedly stepping into a children list. -/
inductive DownPath (store : List (String × Group)) : String → String → Prop where
  | refl (x : String) : DownPath store x x
  | step (x y z : String) (hxy : DownPath store x y) (hz : z ∈ childrenAt store y) :
      DownPath store x z

theorem downpath_cases {store : List (String × Group)} {x z : String}
    (h : DownPath store x z) :
    z = x ∨ ∃ c ∈ childrenAt store x, DownPath store c z := by
  induction h with
  | refl => exact Or.inl rfl
  | step y z hxy hz ih =>
    rcases ih with rfl | ⟨c, hc, dp⟩
    · exact Or.inr ⟨z, hz, .refl z⟩
    · exact Or.inr ⟨c, hc, .step c y z dp hz⟩

theorem collectTree_cov (store : List (String × Group)) :
    ∀ (f : Nat) (arr : List String) (rid : String) (v : List String),
      collectTree f store arr rid = some v →
      ∀ x, DownPath store rid x → childrenAt store x ≠ [] → x ∈ v := by
  intro f
  induction f with
  | zero =>
    intro arr rid v h
    simp [collectTree] at h
  | succ f ih =>
    intro arr rid v h x hdp hcf
    rw [collectTree_succ] at h
    cases halk : alookup store rid with
    | none =>
      exfalso
      have hre : childrenAt store rid = [] := by simp [childrenAt, halk]
      rcases downpath_cases hdp with rfl | ⟨c, hc, _⟩
      · exact hcf hre
      · rw [hre] at hc; exact absurd hc (by simp)
    | some g =>
      rw [halk] at h
      replace h : (if g.children.isEmpty = true then some arr
          else g.children.foldl (cstep f store) (some (arr ++ [rid]))) = some v := h
      have hre : childrenAt store rid = g.children := by simp [childrenAt, halk]
      by_cases hemp : g.children.isEmpty
      · exfalso
        have hnil : g.children = [] := List.isEmpty_iff.mp hemp
        rcases downpath_cases hdp with rfl | ⟨c, hc, _⟩
        · exact hcf (hre.trans hnil)
        · rw [hre, hnil] at hc; exact absurd hc (by simp)
      · rw [if_neg hemp] at h
        rcases downpath_cases hdp with heq | ⟨c, hc, dp⟩
        · rw [heq]
          have hpre := cstep_fold_prefix f store
            (fun a r w => collectTree_prefix f store a r w) g.children (arr ++ [rid]) v h
          exact hpre.subset (by simp)
        · rw [hre] at hc
          obtain ⟨a, b, hT, hbv⟩ := cstep_fold_decomp f store g.children (arr ++ [rid]) v h c hc
          exact hbv.subset (ih a c b hT x dp hcf)

theorem effParent_some_self_mem {store : List (String × Group)} {x p : String}
    (h : effParent store x = some p) : x ∈ store.map Prod.fst := by
  unfold effParent at h
  cases hb : (alookup store x).bind Group.parent with
  | none =>
    rw [hb] at h
    replace h : (none : Option String) = some p := h
    exact absurd h (by simp)
  | some q =>
    rw [← alookup_isSome_iff]
    cases ha : alookup store x with
    | none => rw [ha] at hb; exact absurd hb (by simp)
    | some g => rfl

theorem collectTree_fuel (store : List (String × Group))
    (HS : ∀ p g, alookup store p = some g → ∀ c ∈ g.children,
      effParent store c = some p) :
    ∀ (f : Nat) (rid : String) (arr : List String) (l : List String),
      rid ∈ store.map Prod.fst → UpChain store rid l →
      store.length + 2 ≤ f + l.length →
      collectTree f store arr rid ≠ none := by
  intro f
  induction f with
  | zero =>
    intro rid arr l hk hl hge
    exfalso
    have hlen : l.length ≤ store.length := by
      have := nodup_subset_length (upchain_nodup hl) (upchain_subset_keys hl hk)
      simpa using this
    omega
  | succ f ih =>
    intro rid arr l hk hl hge
    rw [collectTree_succ]
    cases halk : alookup store rid with
    | none => simp
    | some g =>
      show (if g.children.isEmpty = true then some arr
        else g.children.foldl (cstep f store) (some (arr ++ [rid]))) ≠ none
      by_cases hemp : g.children.isEmpty
      · simp [hemp]
      · rw [if_neg hemp]
        have hfold : ∀ (cs : List String), (∀ c ∈ cs, c ∈ g.children) →
            ∀ acc, cs.foldl (cstep f store) (some acc) ≠ none := by
          intro cs
          induction cs with
          | nil => intro _ acc; simp
          | cons c cs ihc =>
            intro hcs acc
            rw [List.foldl_cons]
            show cs.foldl (cstep f store) (collectTree f store acc c) ≠ none
            have hcmem : c ∈ g.children := hcs c (by simp)
            have heff : effParent store c = some rid := HS rid g halk c hcmem
            have hck : c ∈ store.map Prod.fst := effParent_some_self_mem heff
            have hchain : UpChain store c (c :: l) := .step c rid l heff hl
            cases hstep : collectTree f store acc c with
            | none =>
              exact absurd hstep (ih c acc (c :: l) hck hchain (by simp; omega))
            | some acc2 =>
              exact ihc (fun c' hc' => hcs c' (by simp [hc'])) acc2
        exact hfold g.children (fun c hc => hc) (arr ++ [rid])

theorem collectRoots_prefix (f : Nat) (store : List (String × Group)) :
    ∀ (rs : List String) (arr v : List String),
      collectRoots f store arr rs = some v → arr <+: v := by
  intro rs
  induction rs with
  | nil =>
    intro arr v h
    exact (Option.some.inj h) ▸ List.prefix_refl _
  | cons r rs ih =>
    intro arr v h
    replace h : (match collectTree f store arr r with
      | none => none
      | some arr2 => collectRoots f store arr2 rs) = some v := h
    cases hstep : collectTree f store arr r with
    | none => rw [hstep] at h; exact absurd h (by simp)
    | some arr2 =>
      rw [hstep] at h
      exact Trans.trans ( collectTree_prefix f store arr r arr2 hstep) (ih arr2 v h)

theorem collectRoots_decomp (f : Nat) (store : List (String × Group)) :
    ∀ (rs : List String) (arr v : List String),
      collectRoots f store arr rs = some v →
      ∀ r ∈ rs, ∃ a b, collectTree f store a r = some b ∧ b <+: v := by
  intro rs
  induction rs with
  | nil => intro arr v _ r hr; simp at hr
  | cons r1 rs ih =>
    intro arr v h r hr
    replace h : (match collectTree f store arr r1 with
      | none => none
      | some arr2 => collectRoots f store arr2 rs) = some v := h
    cases hstep : collectTree f store arr r1 with
    | none => rw [hstep] at h; exact absurd h (by simp)
    | some arr2 =>
      rw [hstep] at h
      rcases List.mem_cons.mp hr with heq | hr'
      · rw [heq]
        exact ⟨arr, arr2, hstep, collectRoots_prefix f store rs arr2 v h⟩
      · exact ih arr2 v h r hr'

theorem collectRoots_sound (store : List (String × Group))
    (HS : ∀ p g, alookup store p = some g → ∀ c ∈ g.children,
      effParent store c = some p) :
    ∀ (f : Nat) (rs arr v : List String),
      (∀ r ∈ rs, ∃ l, UpChain store r l) →
      (∀ x ∈ arr, (∃ l, UpChain store x l) ∧ childrenAt store x ≠ []) →
      collectRoots f store arr rs = some v →
      ∀ x ∈ v, (∃ l, UpChain store x l) ∧ childrenAt store x ≠ [] := by
  intro f rs
  induction rs with
  | nil =>
    intro arr v _ harr h x hx
    exact harr x ((Option.some.inj h) ▸ hx)
  | cons r rs ih =>
    intro arr v hrs harr h x hx
    replace h : (match collectTree f store arr r with
      | none => none
      | some arr2 => collectRoots f store arr2 rs) = some v := h
    cases hstep : collectTree f store arr r with
    | none => rw [hstep] at h; exact absurd h (by simp)
    | some arr2 =>
      rw [hstep] at h
      have harr2 : ∀ y ∈ arr2, (∃ l, UpChain store y l) ∧ childrenAt store y ≠ [] := by
        intro y hy
        rcases collectTree_sound store HS f arr r arr2 (hrs r (by simp)) hstep y hy with
          hmem | hP
        · exact harr y hmem
        · exact hP
      exact ih arr2 v (fun r' hr' => hrs r' (by simp [hr'])) harr2 h x hx

theorem collectRoots_fuel (store : List (String × Group))
    (HS : ∀ p g, alookup store p = some g → ∀ c ∈ g.children,
      effParent store c = some p) :
    ∀ (f : Nat) (rs arr : List String),
      (∀ r ∈ rs, r ∈ store.map Prod.fst ∧ UpChain store r [r]) →
      store.length + 1 ≤ f →
      collectRoots f store arr rs ≠ none := by
  intro f rs
  induction rs with
  | nil => intro arr _ _; simp [collectRoots]
  | cons r rs ih =>
    intro arr hrs hf
    show (match collectTree f store arr r with
      | none => none
      | some arr2 => collectRoots f store arr2 rs) ≠ none
    obtain ⟨hk, hch⟩ := hrs r (by simp)
    cases hstep : collectTree f store arr r with
    | none =>
      exact absurd hstep
        (collectTree_fuel store HS f r arr [r] hk hch (by simp; omega))
    | some arr2 => exact ih arr2 (fun r' hr' => hrs r' (by simp [hr'])) hf

/-! ## Store facts for the post-assignment heap -/

theorem hier_HS (m : GroupsMap) :
    ∀ p g, alookup m.hierState.1 p = some g →
      ∀ c ∈ g.children, effParent m.hierState.1 c = some p := by
  intro p g hpg c hc
  rw [hierStore_alookup] at hpg
  cases hm : alookup m.map p with
  | none => rw [hm] at hpg; exact absurd hpg (by simp)
  | some g0 =>
    rw [hm] at hpg
    obtain rfl : _ = g := Option.some.inj hpg
    replace hc : c ∈ m.keysList.filter (fun k => rawPid m k = some (some p)) := hc
    rw [List.mem_filter] at hc
    obtain ⟨hck, hcp⟩ := hc
    rw [decide_eq_true_eq] at hcp
    have hcs : (alookup m.map c).isSome := (alookup_isSome_iff _ _).mpr hck
    cases hgc : alookup m.map c with
    | none => rw [hgc] at hcs; simp at hcs
    | some gc =>
      have hr := effParent_hier m c gc hgc
      rw [hcp] at hr
      exact (Option.some.inj hr).symm

theorem hier_roots (m : GroupsMap) :
    ∀ r ∈ m.hierState.2,
      r ∈ m.hierState.1.map Prod.fst ∧ UpChain m.hierState.1 r [r] := by
  intro r hr
  have hr2 : r ∈ (bucketPass m).2 := hr
  rw [rootsOf_spec, List.mem_filter] at hr2
  obtain ⟨hrk, hrp⟩ := hr2
  rw [decide_eq_true_eq] at hrp
  have hks : r ∈ m.hierState.1.map Prod.fst := by rw [hierStore_keys]; exact hrk
  refine ⟨hks, ?_⟩
  have hsome : (alookup m.map r).isSome := (alookup_isSome_iff _ _).mpr hrk
  cases hgr : alookup m.map r with
  | none => rw [hgr] at hsome; simp at hsome
  | some gr =>
    have hr3 := effParent_hier m r gr hgr
    rw [hrp] at hr3
    exact UpChain.root r (Option.some.inj hr3).symm

theorem hier_attach (m : GroupsMap) :
    ∀ x p, effParent m.hierState.1 x = some p → x ∈ childrenAt m.hierState.1 p := by
  intro x p heff
  have hxk : x ∈ m.hierState.1.map Prod.fst := effParent_some_self_mem heff
  have hpk : p ∈ m.hierState.1.map Prod.fst := effParent_some_mem heff
  rw [hierStore_keys] at hxk hpk
  rw [mem_childrenAt_hier]
  refine ⟨(alookup_isSome_iff _ _).mpr hpk, hxk, ?_⟩
  have hxs : (alookup m.map x).isSome := (alookup_isSome_iff _ _).mpr hxk
  cases hgx : alookup m.map x with
  | none => rw [hgx] at hxs; simp at hxs
  | some gx => rw [effParent_hier m x gx hgx, heff]

theorem upchain_downpath (m : GroupsMap) :
    ∀ {x : String} {l : List String}, UpChain m.hierState.1 x l →
      ∃ r, r ∈ l ∧ effParent m.hierState.1 r = none ∧ DownPath m.hierState.1 r x := by
  intro x l h
  induction h with
  | root x hx => exact ⟨x, by simp, hx, .refl x⟩
  | step x p l h hp ih =>
    obtain ⟨r, hrl, hre, dp⟩ := ih
    exact ⟨r, by simp [hrl], hre, .step r p x dp (hier_attach m x p h)⟩

theorem childrenAt_ne_mem {store : List (String × Group)} {x : String}
    (h : childrenAt store x ≠ []) : x ∈ store.map Prod.fst := by
  rw [← alookup_isSome_iff]
  cases hx : alookup store x with
  | none => exact absurd (by simp [childrenAt, hx]) h
  | some g => rfl

/-! ## C4 (amended): the valid set and its complement -/

/-- C4 (amended): after the reachability pass, `valid` contains exactly the
visited nodes that have at least one child — childless nodes are never
appended by `_collectTree` — so the complement of `valid` within the full
node set is exactly the set of cycle participants together with all
childless nodes (childless roots and reachable leaves). -/
theorem C4_valid_characterization (m : GroupsMap) :
    ∃ v, m.validOf = some v ∧
      (∀ x, x ∈ v ↔ (cycleParticipant m.hierState.1 x = false ∧
        childrenAt m.hierState.1 x ≠ [])) ∧
      (∀ x, x ∈ cyclesList m.hierState.1 v ↔ (x ∈ m.hierState.1.map Prod.fst ∧
        (cycleParticipant m.hierState.1 x = true ∨ childrenAt m.hierState.1 x = []))) := by
  have hrun : m.validOf = collectRoots (buildFuel m) m.hierState.1 [] m.hierState.2 := rfl
  have hHS := hier_HS m
  have hroots := hier_roots m
  have hlen : m.hierState.1.length = m.map.length := by
    show (assignChildrenPass m (bucketPass m).1).length = _
    simp [assignChildrenPass]
  have hfuel : m.hierState.1.length + 1 ≤ buildFuel m := by
    rw [hlen]
    unfold buildFuel
    calc m.map.length + 1 ≤ m.map.length + 2 := by omega
      _ ≤ (m.map.length + 2) * (m.map.length + 2) :=
        Nat.le_mul_of_pos_left _ (by omega)
  cases hv : collectRoots (buildFuel m) m.hierState.1 [] m.hierState.2 with
  | none =>
    exact absurd hv
      (collectRoots_fuel m.hierState.1 hHS (buildFuel m) m.hierState.2 [] hroots hfuel)
  | some v =>
    have hiff : ∀ x, x ∈ v ↔ (cycleParticipant m.hierState.1 x = false ∧
        childrenAt m.hierState.1 x ≠ []) := by
      intro x
      constructor
      · intro hxv
        obtain ⟨⟨l, hl⟩, hcf⟩ := collectRoots_sound m.hierState.1 hHS (buildFuel m)
          m.hierState.2 [] v (fun r hr => ⟨[r], (hroots r hr).2⟩) (by simp) hv x hxv
        exact ⟨(cycleParticipant_false_iff x (childrenAt_ne_mem hcf)).mpr ⟨l, hl⟩, hcf⟩
      · rintro ⟨hcp, hcf⟩
        have hxk : x ∈ m.hierState.1.map Prod.fst := childrenAt_ne_mem hcf
        obtain ⟨l, hl⟩ := (cycleParticipant_false_iff x hxk).mp hcp
        obtain ⟨r, hrl, hre, dp⟩ := upchain_downpath m hl
        have hrk : r ∈ m.hierState.1.map Prod.fst := upchain_subset_keys hl hxk r hrl
        have hrts : r ∈ m.hierState.2 := by
          show r ∈ (bucketPass m).2
          rw [rootsOf_spec, List.mem_filter]
          rw [hierStore_keys] at hrk
          refine ⟨hrk, ?_⟩
          rw [decide_eq_true_eq]
          have hrs : (alookup m.map r).isSome := (alookup_isSome_iff _ _).mpr hrk
          cases hgr : alookup m.map r with
          | none => rw [hgr] at hrs; simp at hrs
          | some gr => rw [effParent_hier m r gr hgr, hre]
        obtain ⟨a, b, hT, hbv⟩ := collectRoots_decomp (buildFuel m) m.hierState.1
          m.hierState.2 [] v hv r hrts
        exact hbv.subset (collectTree_cov m.hierState.1 (buildFuel m) a r b hT x dp hcf)
    refine ⟨v, hrun.trans hv, hiff, ?_⟩
    intro x
    unfold cyclesList
    rw [List.mem_filter]
    constructor
    · rintro ⟨hxk, hb⟩
      have hxnv : x ∉ v := by
        intro hcon
        simp [hcon] at hb
      refine ⟨hxk, ?_⟩
      by_cases hcp : cycleParticipant m.hierState.1 x = true
      · exact Or.inl hcp
      · refine Or.inr ?_
        by_contra hne
        exact hxnv ((hiff x).mpr ⟨Bool.eq_false_iff.mpr hcp, hne⟩)
    · rintro ⟨hxk, hor⟩
      refine ⟨hxk, ?_⟩
      have hxnv : x ∉ v := by
        intro hxv
        obtain ⟨hcp, hcf⟩ := (hiff x).mp hxv
        rcases hor with h1 | h1
        · rw [hcp] at h1; exact Bool.false_ne_true h1
        · exact hcf h1
      simpa using hxnv


/-! ## Helpers for the cycle-breaking traversal -/

theorem storeUpdate_keys (store : List (String × Group)) (k : String) (f : Group → Group) :
    (storeUpdate store k f).map Prod.fst = store.map Prod.fst := by
  induction store with
  | nil => rfl
  | cons hd tl ih =>
    by_cases h : hd.1 = k
    · simp [storeUpdate, h] at ih ⊢
      exact ih
    · simp [storeUpdate, h] at ih ⊢
      exact ih

theorem alookup_storeUpdate (store : List (String × Group)) (k : String)
    (f : Group → Group) (x : String) :
    alookup (storeUpdate store k f) x =
      if x = k then (alookup store x).map f else alookup store x := by
  induction store with
  | nil => by_cases h : x = k <;> simp [storeUpdate, alookup, h]
  | cons hd tl ih =>
    obtain ⟨a, b⟩ := hd
    rw [show storeUpdate ((a, b) :: tl) k f =
      (if a = k then (a, f b) else (a, b)) :: storeUpdate tl k f from rfl]
    by_cases hk : a = k
    · rw [if_pos hk]
      by_cases hx : a = x
      · have hxk : x = k := hx ▸ hk
        rw [alookup, if_pos hx, if_pos hxk, alookup, if_pos hx]
        rfl
      · rw [alookup, if_neg hx, ih, alookup, if_neg hx]
    · rw [if_neg hk]
      by_cases hx : a = x
      · have hxk : ¬ x = k := fun hc => hk (hx.trans hc)
        rw [alookup, if_pos hx, if_neg hxk, alookup, if_pos hx]
      · rw [alookup, if_neg hx, ih, alookup, if_neg hx]

theorem mem_drop_of_mem_drop_succ {α : Type} {l : List α} {k : Nat} {z : α}
    (h : z ∈ l.drop (k + 1)) : z ∈ l.drop k := by
  have h1 : l.drop (k + 1) = (l.drop k).drop 1 := by
    rw [List.drop_drop]
  rw [h1] at h
  cases hd : l.drop k with
  | nil => rw [hd] at h; simp at h
  | cons a t => rw [hd] at h; simp at h; simp [hd, h]

theorem sublist_mem_drop {α : Type} {l' l : List α} (hs : List.Sublist l' l) :
    ∀ (k : Nat) {z : α}, z ∈ l'.drop k → z ∈ l.drop k := by
  induction hs with
  | slnil => intro k z h; simp at h
  | cons a hs ih =>
    intro k z h
    cases k with
    | zero =>
      simp only [List.drop_zero] at h ⊢
      exact List.mem_cons_of_mem a ((hs.subset) h)
    | succ j =>
      have h2 := ih (j + 1) h
      show z ∈ List.drop j _
      exact mem_drop_of_mem_drop_succ h2
  | cons₂ a hs ih =>
    intro k z h
    cases k with
    | zero =>
      simp only [List.drop_zero] at h ⊢
      rcases List.mem_cons.mp h with rfl | h'
      · exact List.mem_cons_self _ _
      · exact List.mem_cons_of_mem a (hs.subset h')
    | succ j => exact ih j h

theorem nodup_get_not_mem_drop {α : Type} {l : List α} (hn : l.Nodup)
    {i : Nat} (h : i < l.length) : l.get ⟨i, h⟩ ∉ l.drop (i + 1) := by
  intro hmem
  have h2 : i < (l.take (i + 1)).length := by
    rw [List.length_take]
    omega
  have h3 : (l.take (i + 1)).get ⟨i, h2⟩ = l.get ⟨i, h⟩ := by
    simp [List.getElem_take]
  have htake : l.get ⟨i, h⟩ ∈ l.take (i + 1) := by
    rw [← h3]
    exact List.get_mem _ _ _
  exact List.disjoint_take_drop hn (le_refl _) htake hmem

/-- Invariant carried through one cycle-breaking walk.  `keys0` is the
(unchanging) key set of the heap, `F` the tops not yet processed by the
cycle loop, `v0` the visited dictionary at the start of the current walk
and `c0` the current walk's top. -/
structure TravInv (keys0 F v0 : List String) (c0 : String) (S : TState) : Prop where
  keys_eq : S.store.map Prod.fst = keys0
  own : ∀ p gp, alookup S.store p = some gp → ∀ e ∈ gp.children,
    ∃ ge, alookup S.store e = some ge ∧ ge.parent = some p
  chnd : ∀ p gp, alookup S.store p = some gp → gp.children.Nodup
  v0sub : ∀ z ∈ v0, z ∈ S.vlist
  attachF : ∀ x, x ∈ S.vlist → x ∈ F → ∃ P gP, alookup S.store P = some gP ∧
    x ∈ gP.children ∧ (x ∈ v0 → P ∈ v0)
  fresh : ∀ z, z ∈ S.vlist → z ∉ v0 → z ≠ c0 → ∀ o g, alookup S.store o = some g →
    z ∈ g.children → (o ∈ S.vlist ∧ o ∉ v0)
  roots_keys : ∀ r ∈ S.roots, r ∈ keys0

/-- What the traversal guarantees about a span from `S` to `S'`: the
invariant is maintained, the visited dictionary only grows, children lists
only shrink and parents change only to none, and every node newly marked in
the span is currently attached only to owners that were unmarked at the
start of the span — except as allowed by `POK`. -/
structure TravPost (keys0 F v0 : List String) (c0 : String)
    (POK : String → String → Prop) (S S' : TState) : Prop where
  inv : TravInv keys0 F v0 c0 S'
  mono : ∀ z ∈ S.vlist, z ∈ S'.vlist
  shrink : ∀ o g', alookup S'.store o = some g' → ∃ g, alookup S.store o = some g ∧
    List.Sublist g'.children g.children ∧ (g'.parent = g.parent ∨ g'.parent = none)
  newm : ∀ z, z ∈ S'.vlist → z ∉ S.vlist → ∀ o g', alookup S'.store o = some g' →
    z ∈ g'.children → (o ∉ S.vlist ∨ POK z o)

/-- Precondition on a `_traverseCycle` entry node: it is present in the
heap; if already visited it is attached to some owner; and it is either the
walk's top or a child descended into from a marked, in-walk owner. -/
def Entry (v0 : List String) (c0 : String) (S : TState) (e : String) : Prop :=
  (∃ ge, alookup S.store e = some ge) ∧
  (e ∈ S.vlist → ∃ o go, alookup S.store o = some go ∧ e ∈ go.children) ∧
  (e = c0 ∨ ∃ o go, alookup S.store o = some go ∧ e ∈ go.children ∧ o ∈ S.vlist ∧
    o ∉ v0 ∧ (e ∈ S.vlist → (e ∈ v0 ∨ e = c0)))

/-- The per-loop invariant of the child iteration at owner `o`, index `i`:
every not-yet-iterated child that is already visited was visited before
this walk started (or is the walk's top). -/
def LoopInv (v0 : List String) (c0 : String) (S : TState) (o : String) (i : Nat) : Prop :=
  ∀ z ∈ (childrenAt S.store o).drop i, z ∈ S.vlist → (z ∈ v0 ∨ z = c0)

theorem attach_unique {keys0 F v0 : List String} {c0 : String} {S : TState}
    (hinv : TravInv keys0 F v0 c0 S) {e o1 o2 : String} {g1 g2 : Group}
    (h1 : alookup S.store o1 = some g1) (hm1 : e ∈ g1.children)
    (h2 : alookup S.store o2 = some g2) (hm2 : e ∈ g2.children) : o1 = o2 := by
  obtain ⟨ge1, hge1, hp1⟩ := hinv.own o1 g1 h1 e hm1
  obtain ⟨ge2, hge2, hp2⟩ := hinv.own o2 g2 h2 e hm2
  rw [hge1] at hge2
  obtain rfl : ge1 = ge2 := Option.some.inj hge2
  rw [hp1] at hp2
  exact Option.some.inj hp2

theorem mem_keys_lookup {store : List (String × Group)} {keys0 : List String}
    (hkeys : store.map Prod.fst = keys0) {x : String} (hx : x ∈ keys0) :
    ∃ g, alookup store x = some g := by
  have : (alookup store x).isSome := by
    rw [alookup_isSome_iff, hkeys]
    exact hx
  cases h : alookup store x with
  | none => rw [h] at this; simp at this
  | some g => exact ⟨g, rfl⟩

/-- A cut never happens at a remaining top: the entry conditions and the
walk invariant contradict `e ∈ F` for a visited entry. -/
theorem cut_not_future {keys0 F v0 : List String} {c0 : String} (hc0 : c0 ∉ F)
    {S : TState} {e : String} (hinv : TravInv keys0 F v0 c0 S)
    (hent : Entry v0 c0 S e) (hvl : e ∈ S.vlist) : e ∉ F := by
  intro heF
  rcases hent.2.2 with rfl | ⟨o, go, ho, hmem, hovl, honv0, himp⟩
  · exact hc0 heF
  · rcases himp hvl with hev0 | rfl
    · obtain ⟨P, gP, hP, hxP, hv0im⟩ := hinv.attachF e hvl heF
      have : P = o := attach_unique hinv hP hxP ho hmem
      exact honv0 (this ▸ hv0im hev0)
    · exact hc0 heF

/-- The state produced by a cut of `e` from its parent `o`. -/
def cutState (S : TState) (o e : String) : TState :=
  ⟨storeUpdate (storeUpdate S.store o
      (fun p => { p with children := p.children.erase e })) e
      (fun x => { x with parent := none }),
    S.roots ++ [e], S.vlist⟩

theorem cut_step {keys0 F v0 : List String} {c0 : String} (hc0 : c0 ∉ F)
    {S : TState} {e : String} (hinv : TravInv keys0 F v0 c0 S)
    (hent : Entry v0 c0 S e) {g : Group} (hg : alookup S.store e = some g)
    (hvl : e ∈ S.vlist) :
    ∃ o go, g.parent = some o ∧ alookup S.store o = some go ∧ e ∈ go.children ∧
      TravPost keys0 F v0 c0 (fun z _ => z = e) S (cutState S o e) := by
  obtain ⟨o, go, ho, hmem⟩ := hent.2.1 hvl
  obtain ⟨ge, hge, hpar⟩ := hinv.own o go ho e hmem
  rw [hg] at hge
  obtain rfl : g = ge := Option.some.inj hge
  refine ⟨o, go, hpar, ho, hmem, ?_⟩
  have heF : e ∉ F := cut_not_future hc0 hinv hent hvl
  have hstore : (cutState S o e).store = storeUpdate (storeUpdate S.store o
      (fun p => { p with children := p.children.erase e })) e
      (fun x => { x with parent := none }) := rfl
  have hkeys2 : (cutState S o e).store.map Prod.fst = keys0 := by
    rw [hstore, storeUpdate_keys, storeUpdate_keys]
    exact hinv.keys_eq
  have hlk2 : ∀ x, alookup (cutState S o e).store x =
      if x = e then
        ((if x = o then (alookup S.store x).map
            (fun p => { p with children := p.children.erase e })
          else alookup S.store x).map (fun y => { y with parent := none }))
      else
        (if x = o then (alookup S.store x).map
            (fun p => { p with children := p.children.erase e })
          else alookup S.store x) := by
    intro x
    rw [hstore, alookup_storeUpdate, alookup_storeUpdate]
  have hchild2 : ∀ p gp', alookup (cutState S o e).store p = some gp' →
      ∃ gp, alookup S.store p = some gp ∧
        (gp'.children = gp.children ∨ gp'.children = gp.children.erase e) ∧
        (gp'.parent = gp.parent ∨ gp'.parent = none) := by
    intro p gp' hp'
    rw [hlk2] at hp'
    by_cases hpe : p = e
    · rw [if_pos hpe] at hp'
      by_cases hpo : p = o
      · rw [if_pos hpo] at hp'
        cases hlo : alookup S.store p with
        | none => rw [hlo] at hp'; exact absurd hp' (by simp)
        | some gp =>
          rw [hlo] at hp'
          simp only [Option.map_some'] at hp'
          have heq := Option.some.inj hp'
          exact ⟨gp, rfl, Or.inr (by rw [← heq]), Or.inr (by rw [← heq])⟩
      · rw [if_neg hpo] at hp'
        cases hlo : alookup S.store p with
        | none => rw [hlo] at hp'; exact absurd hp' (by simp)
        | some gp =>
          rw [hlo] at hp'
          simp only [Option.map_some'] at hp'
          have heq := Option.some.inj hp'
          exact ⟨gp, rfl, Or.inl (by rw [← heq]), Or.inr (by rw [← heq])⟩
    · rw [if_neg hpe] at hp'
      by_cases hpo : p = o
      · rw [if_pos hpo] at hp'
        cases hlo : alookup S.store p with
        | none => rw [hlo] at hp'; exact absurd hp' (by simp)
        | some gp =>
          rw [hlo] at hp'
          simp only [Option.map_some'] at hp'
          have heq := Option.some.inj hp'
          exact ⟨gp, rfl, Or.inr (by rw [← heq]), Or.inl (by rw [← heq])⟩
      · rw [if_neg hpo] at hp'
        exact ⟨gp', hp', Or.inl rfl, Or.inl rfl⟩
  have hende : ∀ p gp', alookup (cutState S o e).store p = some gp' →
      e ∉ gp'.children := by
    intro p gp' hp' hecon
    obtain ⟨gp, hp, hch, _⟩ := hchild2 p gp' hp'
    rcases hch with hsame | hers
    · have hpo : p = o := attach_unique hinv hp (hsame ▸ hecon) ho hmem
      rw [hlk2] at hp'
      by_cases hpe : p = e
      · rw [if_pos hpe, if_pos hpo, hp] at hp'
        simp only [Option.map_some'] at hp'
        have heq := Option.some.inj hp'
        rw [← heq] at hecon
        replace hecon : e ∈ gp.children.erase e := hecon
        exact (List.Nodup.not_mem_erase (hinv.chnd p gp hp)) hecon
      · rw [if_neg hpe, if_pos hpo, hp] at hp'
        simp only [Option.map_some'] at hp'
        have heq := Option.some.inj hp'
        rw [← heq] at hecon
        replace hecon : e ∈ gp.children.erase e := hecon
        exact (List.Nodup.not_mem_erase (hinv.chnd p gp hp)) hecon
    · exact (List.Nodup.not_mem_erase (hinv.chnd p gp hp)) (hers ▸ hecon)
  refine ⟨?_, ?_, ?_, ?_⟩
  · refine ⟨hkeys2, ?_, ?_, hinv.v0sub, ?_, ?_, ?_⟩
    · -- ownership
      intro p gp' hp' c hc
      obtain ⟨gp, hp, hch, _⟩ := hchild2 p gp' hp'
      have hcold : c ∈ gp.children := by
        rcases hch with hsame | hers
        · exact hsame ▸ hc
        · exact (List.erase_sublist _ _).subset (hers ▸ hc)
      have hcne : c ≠ e := fun hce => hende p gp' hp' (hce ▸ hc)
      obtain ⟨gc, hgc, hpc⟩ := hinv.own p gp hp c hcold
      have hlkc : alookup (cutState S o e).store c =
          if c = o then some { gc with children := gc.children.erase e }
          else some gc := by
        rw [hlk2, if_neg hcne]
        by_cases hco : c = o
        · rw [if_pos hco, if_pos hco, hgc]
          rfl
        · rw [if_neg hco, if_neg hco, hgc]
      by_cases hco : c = o
      · rw [hlkc, if_pos hco]
        exact ⟨_, rfl, hpc⟩
      · rw [hlkc, if_neg hco]
        exact ⟨gc, rfl, hpc⟩
    · -- children nodup
      intro p gp' hp'
      obtain ⟨gp, hp, hch, _⟩ := hchild2 p gp' hp'
      rcases hch with hsame | hers
      · rw [hsame]
        exact hinv.chnd p gp hp
      · rw [hers]
        exact List.Nodup.erase _ (hinv.chnd p gp hp)
    · -- attachF
      intro x hxv hxF
      have hxvS : x ∈ S.vlist := hxv
      have hxe : x ≠ e := fun hce => heF (hce ▸ hxF)
      obtain ⟨P, gP, hP, hxP, hv0im⟩ := hinv.attachF x hxvS hxF
      have hme : x ∈ gP.children.erase e := (List.mem_erase_of_ne hxe).mpr hxP
      by_cases hPe : P = e
      · by_cases hPo : P = o
        · refine ⟨P, { gP with parent := none, children := gP.children.erase e },
            ?_, hme, hv0im⟩
          rw [hlk2, if_pos hPe, if_pos hPo, hP]
          rfl
        · refine ⟨P, { gP with parent := none }, ?_, hxP, hv0im⟩
          rw [hlk2, if_pos hPe, if_neg hPo, hP]
          rfl
      · by_cases hPo : P = o
        · refine ⟨P, { gP with children := gP.children.erase e }, ?_, hme, hv0im⟩
          rw [hlk2, if_neg hPe, if_pos hPo, hP]
          rfl
        · refine ⟨P, gP, ?_, hxP, hv0im⟩
          rw [hlk2, if_neg hPe, if_neg hPo, hP]
    · -- fresh
      intro z hzv hznv0 hznc0 oo gg hoo hzc
      obtain ⟨gold, holdl, hch, _⟩ := hchild2 oo gg hoo
      have hzold : z ∈ gold.children := by
        rcases hch with hsame | hers
        · exact hsame ▸ hzc
        · exact (List.erase_sublist _ _).subset (hers ▸ hzc)
      exact hinv.fresh z hzv hznv0 hznc0 oo gold holdl hzold
    · -- roots keys
      intro r hr
      rcases List.mem_append.mp hr with hr' | hr'
      · exact hinv.roots_keys r hr'
      · rw [List.mem_singleton] at hr'
        subst hr'
        rw [← hinv.keys_eq, ← alookup_isSome_iff, hg]
        rfl
  · intro z hz
    exact hz
  · intro oo g' hoo
    obtain ⟨gold, holdl, hch, hpar'⟩ := hchild2 oo g' hoo
    refine ⟨gold, holdl, ?_, hpar'⟩
    rcases hch with hsame | hers
    · rw [hsame]
    · rw [hers]
      exact List.erase_sublist _ _
  · intro z hz1 hz2
    exact absurd hz1 hz2

/-- Marking an unvisited entry preserves the walk invariant. -/
theorem mark_inv {keys0 F v0 : List String} {c0 : String} (hc0 : c0 ∉ F)
    {S : TState} {e : String} (hinv : TravInv keys0 F v0 c0 S)
    (hent : Entry v0 c0 S e) (he : e ∉ S.vlist) :
    TravInv keys0 F v0 c0 { S with vlist := S.vlist ++ [e] } := by
  refine ⟨hinv.keys_eq, hinv.own, hinv.chnd, ?_, ?_, ?_, hinv.roots_keys⟩
  · intro z hz
    exact List.mem_append_left _ (hinv.v0sub z hz)
  · intro x hxv hxF
    rcases List.mem_append.mp hxv with hx | hx
    · exact hinv.attachF x hx hxF
    · rw [List.mem_singleton] at hx
      subst hx
      rcases hent.2.2 with rfl | ⟨o, go, ho, hmem, _, _, _⟩
      · exact absurd hxF hc0
      · exact ⟨o, go, ho, hmem, fun hv0 => absurd (hinv.v0sub x hv0) he⟩
  · intro z hzv hznv0 hznc0 o g ho hzc
    rcases List.mem_append.mp hzv with hz | hz
    · obtain ⟨h1, h2⟩ := hinv.fresh z hz hznv0 hznc0 o g ho hzc
      exact ⟨List.mem_append_left _ h1, h2⟩
    · rw [List.mem_singleton] at hz
      subst hz
      rcases hent.2.2 with rfl | ⟨o1, go1, ho1, hmem1, hov1, honv1, _⟩
      · exact absurd rfl hznc0
      · have heo : o = o1 := attach_unique hinv ho hzc ho1 hmem1
        subst heo
        exact ⟨List.mem_append_left _ hov1, honv1⟩

/-- The loop invariant holds at index 0 right after marking the owner. -/
theorem mark_loopinv {keys0 F v0 : List String} {c0 : String}
    {S : TState} {e : String} (hinv : TravInv keys0 F v0 c0 S)
    (hent : Entry v0 c0 S e) (he : e ∉ S.vlist) :
    LoopInv v0 c0 { S with vlist := S.vlist ++ [e] } e 0 := by
  intro z hz hzv
  rw [List.drop_zero] at hz
  have hzc : z ∈ childrenAt S.store e := hz
  have hlk : ∃ g, alookup S.store e = some g ∧ z ∈ g.children := by
    unfold childrenAt at hzc
    cases hl : alookup S.store e with
    | none => rw [hl] at hzc; simp at hzc
    | some g => rw [hl] at hzc; exact ⟨g, rfl, by simpa using hzc⟩
  obtain ⟨g, hg, hzg⟩ := hlk
  rcases List.mem_append.mp hzv with hzS | hze
  · by_cases hv0 : z ∈ v0
    · exact Or.inl hv0
    by_cases hzc0 : z = c0
    · exact Or.inr hzc0
    obtain ⟨hev, _⟩ := hinv.fresh z hzS hv0 hzc0 e g hg hzg
    exact absurd hev he
  · rw [List.mem_singleton] at hze
    rw [hze] at hzg
    rcases hent.2.2 with heq0 | ⟨o, go, ho, hmem, hov, _, _⟩
    · exact Or.inr (hze.trans heq0)
    · have heo : e = o := attach_unique hinv hg hzg ho hmem
      rw [← heo] at hov
      exact absurd hov he

/-- The trivial traversal postcondition from a state to itself. -/
theorem post_refl {keys0 F v0 : List String} {c0 : String}
    {P : String → String → Prop} {S : TState}
    (hinv : TravInv keys0 F v0 c0 S) : TravPost keys0 F v0 c0 P S S := by
  refine ⟨hinv, fun z hz => hz, ?_, ?_⟩
  · intro o g h
    exact ⟨g, h, List.Sublist.refl _, Or.inl rfl⟩
  · intro z hz1 hz2
    exact absurd hz1 hz2

/-- Transitivity of the traversal postcondition.  The implication
hypotheses may use the attachment context to convert each spans
new-mark permission into the composite one. -/
theorem post_trans {keys0 F v0 : List String} {c0 : String}
    {P1 P2 P3 : String → String → Prop} {S1 S2 S3 : TState}
    (h12 : TravPost keys0 F v0 c0 P1 S1 S2)
    (h23 : TravPost keys0 F v0 c0 P2 S2 S3)
    (i1 : ∀ z w g2, alookup S2.store w = some g2 → z ∈ g2.children → P1 z w →
      (w ∉ S1.vlist ∨ P3 z w))
    (i2 : ∀ z w g3, alookup S3.store w = some g3 → z ∈ g3.children → P2 z w →
      (w ∉ S2.vlist ∨ P3 z w)) :
    TravPost keys0 F v0 c0 P3 S1 S3 := by
  refine ⟨h23.inv, ?_, ?_, ?_⟩
  · intro z hz
    exact h23.mono z (h12.mono z hz)
  · intro w g3 h3
    obtain ⟨g2, h2, hs2, hp2⟩ := h23.shrink w g3 h3
    obtain ⟨g1, h1, hs1, hp1⟩ := h12.shrink w g2 h2
    refine ⟨g1, h1, hs2.trans hs1, ?_⟩
    rcases hp2 with he | he
    · rcases hp1 with he2 | he2
      · exact Or.inl (he.trans he2)
      · exact Or.inr (he.trans he2)
    · exact Or.inr he
  · intro z hz3 hz1 w g3 hlw hzc
    by_cases hz2 : z ∈ S2.vlist
    · obtain ⟨g2, h2, hs2, _⟩ := h23.shrink w g3 hlw
      have hzc2 : z ∈ g2.children := hs2.subset hzc
      rcases h12.newm z hz2 hz1 w g2 h2 hzc2 with h | h
      · exact Or.inl h
      · exact i1 z w g2 h2 hzc2 h
    · rcases h23.newm z hz3 hz2 w g3 hlw hzc with h | h
      · exact Or.inl (fun hc => h (h12.mono w hc))
      · rcases i2 z w g3 hlw hzc h with h2 | h2
        · exact Or.inl (fun hc => h2 (h12.mono w hc))
        · exact Or.inr h2

/-- The loop invariant advances across one child traversal: a node newly
marked by the sub-walk cannot reappear among the not-yet-iterated children
of the owner, and old marks among them were constrained already. -/
theorem loop_next {keys0 F v0 : List String} {c0 : String}
    {S S2 : TState} {o : String} {go : Group} {i : Nat}
    (hinv : TravInv keys0 F v0 c0 S)
    (hgo : alookup S.store o = some go)
    (hlt : i < go.children.length)
    (hpost : TravPost keys0 F v0 c0
      (fun z _ => z = go.children.get ⟨i, hlt⟩) S S2)
    (hloop : LoopInv v0 c0 S o i) (hov : o ∈ S.vlist) :
    LoopInv v0 c0 S2 o (i + 1) := by
  intro z hz hzv
  cases hgo2 : alookup S2.store o with
  | none =>
    rw [show childrenAt S2.store o = [] from by simp [childrenAt, hgo2]] at hz
    simp at hz
  | some g2 =>
    obtain ⟨g, hgS, hsub, _⟩ := hpost.shrink o g2 hgo2
    rw [hgo] at hgS
    obtain rfl : go = g := Option.some.inj hgS
    have hch2 : childrenAt S2.store o = g2.children := by simp [childrenAt, hgo2]
    have hchS : childrenAt S.store o = go.children := by simp [childrenAt, hgo]
    rw [hch2] at hz
    have hz1 : z ∈ go.children.drop (i + 1) := sublist_mem_drop hsub (i + 1) hz
    have hz0 : z ∈ go.children.drop i := mem_drop_of_mem_drop_succ hz1
    by_cases hzS : z ∈ S.vlist
    · exact hloop z (by rw [hchS]; exact hz0) hzS
    · have hzc : z ∈ g2.children := List.mem_of_mem_drop hz
      rcases hpost.newm z hzv hzS o g2 hgo2 hzc with h | h
      · exact absurd hov h
      · rw [h] at hz1
        exact absurd hz1 (nodup_get_not_mem_drop (hinv.chnd o go hgo) hlt)

/-- Joint safety of `_traverseCycle` and its child loop: under the walk
invariant and the entry conditions, no run raises a Python error — in
particular the parent lookup at every cut succeeds — and a completed run
establishes the traversal postcondition. -/
theorem walk_safe (keys0 F v0 : List String) (c0 : String) (hc0 : c0 ∉ F) :
    ∀ f : Nat,
    (∀ S e, TravInv keys0 F v0 c0 S → Entry v0 c0 S e →
      traverse f S e ≠ Except.error TravErr.pyError ∧
      ∀ S2, traverse f S e = Except.ok S2 →
        TravPost keys0 F v0 c0 (fun z _ => z = e) S S2) ∧
    (∀ S o i go, TravInv keys0 F v0 c0 S → alookup S.store o = some go →
      o ∈ S.vlist → o ∉ v0 → LoopInv v0 c0 S o i →
      travLoop f S o i ≠ Except.error TravErr.pyError ∧
      ∀ S2, travLoop f S o i = Except.ok S2 →
        TravPost keys0 F v0 c0 (fun _ w => w = o) S S2) := by
  intro f
  induction f with
  | zero =>
    constructor
    · intro S e _ _
      constructor
      · intro h
        rw [show traverse 0 S e = Except.error TravErr.fuelOut from rfl] at h
        exact TravErr.noConfusion (Except.error.inj h)
      · intro S2 h
        rw [show traverse 0 S e = Except.error TravErr.fuelOut from rfl] at h
        exact Except.noConfusion h
    · intro S o i go _ _ _ _ _
      constructor
      · intro h
        rw [show travLoop 0 S o i = Except.error TravErr.fuelOut from rfl] at h
        exact TravErr.noConfusion (Except.error.inj h)
      · intro S2 h
        rw [show travLoop 0 S o i = Except.error TravErr.fuelOut from rfl] at h
        exact Except.noConfusion h
  | succ f ih =>
    obtain ⟨ihT, ihL⟩ := ih
    constructor
    · -- traverse
      intro S e hinv hent
      obtain ⟨g, hg⟩ := hent.1
      by_cases hemp : g.children.isEmpty = true
      · have heq : traverse (f + 1) S e = Except.ok S := by
          simp [traverse, hg, hemp]
        constructor
        · rw [heq]
          intro h
          exact Except.noConfusion h
        · intro S2 h
          rw [heq] at h
          obtain rfl := Except.ok.inj h
          exact post_refl hinv
      · by_cases hvl : e ∈ S.vlist
        · -- cut branch
          obtain ⟨o, go, hpar, ho, hmem, hpost⟩ := cut_step hc0 hinv hent hg hvl
          have heq : traverse (f + 1) S e = Except.ok (cutState S o e) := by
            simp [traverse, hg, hemp, hvl, hpar, ho, hmem, cutState]
          constructor
          · rw [heq]
            intro h
            exact Except.noConfusion h
          · intro S2 h
            rw [heq] at h
            obtain rfl := Except.ok.inj h
            exact hpost
        · -- mark branch
          have heq : traverse (f + 1) S e =
              travLoop f { S with vlist := S.vlist ++ [e] } e 0 := by
            simp [traverse, hg, hemp, hvl]
          have hinv1 := mark_inv hc0 hinv hent hvl
          have hloop1 := mark_loopinv hinv hent hvl
          have he1 : e ∈ ({ S with vlist := S.vlist ++ [e] } : TState).vlist :=
            List.mem_append_right _ (List.mem_singleton.mpr rfl)
          have henv0 : e ∉ v0 := fun hc => hvl (hinv.v0sub e hc)
          have hg1 : alookup ({ S with vlist := S.vlist ++ [e] } : TState).store e
              = some g := hg
          obtain ⟨hne, hok⟩ :=
            ihL { S with vlist := S.vlist ++ [e] } e 0 g hinv1 hg1 he1 henv0 hloop1
          constructor
          · rw [heq]
            exact hne
          · intro S2 h
            rw [heq] at h
            have hpostL := hok S2 h
            refine ⟨hpostL.inv, ?_, ?_, ?_⟩
            · intro z hz
              exact hpostL.mono z (List.mem_append_left _ hz)
            · intro w g2 h2
              exact hpostL.shrink w g2 h2
            · intro z hz1 hz2 w g2 hw hzc
              by_cases hze : z = e
              · exact Or.inr hze
              · have hz2b : z ∉ ({ S with vlist := S.vlist ++ [e] } : TState).vlist := by
                  intro hc
                  rcases List.mem_append.mp hc with hcc | hcc
                  · exact hz2 hcc
                  · exact hze (List.mem_singleton.mp hcc)
                rcases hpostL.newm z hz1 hz2b w g2 hw hzc with hnm | hnm
                · exact Or.inl (fun hc => hnm (List.mem_append_left _ hc))
                · exact Or.inl (fun hc => hvl (hnm ▸ hc))
    · -- travLoop
      intro S o i go hinv hgo hov honv0 hloop
      by_cases hlt : i < go.children.length
      · have hcmem : go.children.get ⟨i, hlt⟩ ∈ go.children := List.get_mem _ _ _
        obtain ⟨gc, hgc, hpc⟩ := hinv.own o go hgo _ hcmem
        have hchAt : childrenAt S.store o = go.children := by
          simp [childrenAt, hgo]
        have hcdrop : go.children.get ⟨i, hlt⟩ ∈ (childrenAt S.store o).drop i := by
          rw [hchAt, List.drop_eq_getElem_cons hlt]
          exact List.mem_cons_self _ _
        have hentc : Entry v0 c0 S (go.children.get ⟨i, hlt⟩) := by
          refine ⟨⟨gc, hgc⟩, fun _ => ⟨o, go, hgo, hcmem⟩,
            Or.inr ⟨o, go, hgo, hcmem, hov, honv0, ?_⟩⟩
          intro hcv
          exact hloop _ hcdrop hcv
        obtain ⟨hTne, hTok⟩ := ihT S (go.children.get ⟨i, hlt⟩) hinv hentc
        cases hT : traverse f S (go.children.get ⟨i, hlt⟩) with
        | error err =>
          have herr : err ≠ TravErr.pyError := by
            intro hc
            rw [hc] at hT
            exact hTne hT
          have heq : travLoop (f + 1) S o i = Except.error err := by
            simp only [travLoop, hgo]
            rw [dif_pos hlt, hT]
          constructor
          · rw [heq]
            intro hcon
            exact herr (Except.error.inj hcon)
          · intro S2 hcon
            rw [heq] at hcon
            exact Except.noConfusion hcon
        | ok S2 =>
          have hpostT := hTok S2 hT
          have heq : travLoop (f + 1) S o i = travLoop f S2 o (i + 1) := by
            simp only [travLoop, hgo]
            rw [dif_pos hlt, hT]
          have hok : o ∈ keys0 := by
            rw [← hinv.keys_eq, ← alookup_isSome_iff, hgo]
            rfl
          obtain ⟨go2, hgo2⟩ := mem_keys_lookup hpostT.inv.keys_eq hok
          have hloop2 : LoopInv v0 c0 S2 o (i + 1) :=
            loop_next hinv hgo hlt hpostT hloop hov
          obtain ⟨hLne, hLok⟩ :=
            ihL S2 o (i + 1) go2 hpostT.inv hgo2 (hpostT.mono o hov) honv0 hloop2
          constructor
          · rw [heq]
            exact hLne
          · intro S3 h
            rw [heq] at h
            refine post_trans hpostT (hLok S3 h) ?_ ?_
            · intro z w g2 hlk hzc hz
              subst hz
              obtain ⟨gc2, hgc2, hpc2⟩ := hpostT.inv.own w g2 hlk _ hzc
              obtain ⟨gc1, hgc1, _, hpp⟩ := hpostT.shrink _ gc2 hgc2
              obtain ⟨gc0, hgc0, hpc0⟩ := hinv.own o go hgo _ hcmem
              rw [hgc0] at hgc1
              obtain rfl : gc0 = gc1 := Option.some.inj hgc1
              rcases hpp with he | he
              · right
                rw [hpc2, hpc0] at he
                exact Option.some.inj he
              · rw [hpc2] at he
                exact absurd he (by simp)
            · intro z w g3 _ _ hw
              exact Or.inr hw
      · have heq : travLoop (f + 1) S o i = Except.ok S := by
          simp only [travLoop, hgo]
          rw [dif_neg hlt]
        constructor
        · rw [heq]
          intro h
          exact Except.noConfusion h
        · intro S2 h
          rw [heq] at h
          obtain rfl := Except.ok.inj h
          exact post_refl hinv

/-- Invariant carried across the top-level cycle-loop calls: the heap keys
are unchanged, ownership data is well-formed, collected roots are
registered, and every visited member of the remaining cycles list is still
attached to a visited owner. -/
structure CycInv (keys0 rem : List String) (S : TState) : Prop where
  keys_eq : S.store.map Prod.fst = keys0
  own : ∀ p gp, alookup S.store p = some gp → ∀ e ∈ gp.children,
    ∃ ge, alookup S.store e = some ge ∧ ge.parent = some p
  chnd : ∀ p gp, alookup S.store p = some gp → gp.children.Nodup
  roots_keys : ∀ r ∈ S.roots, r ∈ keys0
  vpm : ∀ x ∈ S.vlist, x ∈ rem → ∃ P gP, alookup S.store P = some gP ∧
    x ∈ gP.children ∧ P ∈ S.vlist

/-- Safety of the whole cycle loop: no top-level walk over a duplicate-free
remaining list of registered tops ever raises a Python error, and the
final state keeps the key set and registered roots. -/
theorem cycle_safe (keys0 : List String) :
    ∀ (rem : List String) (f : Nat) (S : TState), CycInv keys0 rem S →
      rem.Nodup → (∀ r ∈ rem, r ∈ keys0) →
      cycleLoop f S rem ≠ Except.error TravErr.pyError ∧
      ∀ S2, cycleLoop f S rem = Except.ok S2 →
        (S2.store.map Prod.fst = keys0 ∧ ∀ r ∈ S2.roots, r ∈ keys0) := by
  intro rem
  induction rem with
  | nil =>
    intro f S hcyc _ _
    constructor
    · intro h
      rw [show cycleLoop f S [] = Except.ok S from rfl] at h
      exact Except.noConfusion h
    · intro S2 h
      rw [show cycleLoop f S [] = Except.ok S from rfl] at h
      obtain rfl := Except.ok.inj h
      exact ⟨hcyc.keys_eq, hcyc.roots_keys⟩
  | cons c cs ih =>
    intro f S hcyc hnd hsub
    have hcF : c ∉ cs := (List.nodup_cons.mp hnd).1
    have hcsnd : cs.Nodup := (List.nodup_cons.mp hnd).2
    have hck : c ∈ keys0 := hsub c (List.mem_cons_self _ _)
    have hinv : TravInv keys0 cs S.vlist c S := by
      refine ⟨hcyc.keys_eq, hcyc.own, hcyc.chnd, fun z hz => hz, ?_, ?_,
        hcyc.roots_keys⟩
      · intro x hxv hxF
        obtain ⟨P, gP, hP, hxP, hPv⟩ := hcyc.vpm x hxv (List.mem_cons_of_mem _ hxF)
        exact ⟨P, gP, hP, hxP, fun _ => hPv⟩
      · intro z hzv hznv0 _ _ _ _ _
        exact absurd hzv hznv0
    obtain ⟨gc, hgc⟩ := mem_keys_lookup hcyc.keys_eq hck
    have hent : Entry S.vlist c S c := by
      refine ⟨⟨gc, hgc⟩, ?_, Or.inl rfl⟩
      intro hcv
      obtain ⟨P, gP, hP, hcP, _⟩ := hcyc.vpm c hcv (List.mem_cons_self _ _)
      exact ⟨P, gP, hP, hcP⟩
    obtain ⟨hTne, hTok⟩ := (walk_safe keys0 cs S.vlist c hcF f).1 S c hinv hent
    cases hT : traverse f S c with
    | error err =>
      have herr : err ≠ TravErr.pyError := by
        intro hc
        rw [hc] at hT
        exact hTne hT
      have heq : cycleLoop f S (c :: cs) = Except.error err := by
        simp [cycleLoop, hT]
      constructor
      · rw [heq]
        intro hcon
        exact herr (Except.error.inj hcon)
      · intro S2 hcon
        rw [heq] at hcon
        exact Except.noConfusion hcon
    | ok S2 =>
      have hpost := hTok S2 hT
      have hcyc2 : CycInv keys0 cs S2 := by
        refine ⟨hpost.inv.keys_eq, hpost.inv.own, hpost.inv.chnd,
          hpost.inv.roots_keys, ?_⟩
        intro x hxv hxcs
        by_cases hxv0 : x ∈ S.vlist
        · obtain ⟨P, gP, hP, hxP, himp⟩ := hpost.inv.attachF x hxv hxcs
          exact ⟨P, gP, hP, hxP, hpost.mono P (himp hxv0)⟩
        · have hxc : x ≠ c := fun hcon => hcF (hcon ▸ hxcs)
          obtain ⟨P, gP, hP, hxP, _⟩ := hpost.inv.attachF x hxv hxcs
          obtain ⟨hPv, _⟩ := hpost.inv.fresh x hxv hxv0 hxc P gP hP hxP
          exact ⟨P, gP, hP, hxP, hPv⟩
      have heq : cycleLoop f S (c :: cs) = cycleLoop f S2 cs := by
        simp [cycleLoop, hT]
      obtain ⟨hLne, hLok⟩ :=
        ih f S2 hcyc2 hcsnd (fun r hr => hsub r (List.mem_cons_of_mem _ hr))
      constructor
      · rw [heq]
        exact hLne
      · intro S3 h
        rw [heq] at h
        exact hLok S3 h

/-- The rebuild pass succeeds whenever every collected root is registered
in the final heap. -/
theorem rebuild_ok (store : List (String × Group)) :
    ∀ (rs : List String) (acc : List (String × Group)),
      (∀ r ∈ rs, ∃ g, alookup store r = some g) →
      ∃ acc2, rebuildLoop store acc rs = Except.ok acc2 := by
  intro rs
  induction rs with
  | nil =>
    intro acc _
    exact ⟨acc, rfl⟩
  | cons r rs ih =>
    intro acc hall
    obtain ⟨g, hg⟩ := hall r (List.mem_cons_self _ _)
    have heq : rebuildLoop store acc (r :: rs) =
        rebuildLoop store (ainsert acc g.gid g) rs := by
      simp [rebuildLoop, hg]
    obtain ⟨acc2, hacc⟩ := ih (ainsert acc g.gid g)
      (fun x hx => hall x (List.mem_cons_of_mem _ hx))
    exact ⟨acc2, heq.trans hacc⟩

/-- A node with a some effective parent stores that parent in its parent
field. -/
theorem effParent_parent {store : List (String × Group)} {e p : String}
    (h : effParent store e = some p) :
    ∃ ge, alookup store e = some ge ∧ ge.parent = some p := by
  unfold effParent at h
  cases hl : alookup store e with
  | none => rw [hl] at h; simp at h
  | some ge =>
    rw [hl] at h
    refine ⟨ge, rfl, ?_⟩
    cases hp : ge.parent with
    | none =>
      rw [show (some ge).bind Group.parent = ge.parent from rfl, hp] at h
      simp at h
    | some q =>
      rw [show (some ge).bind Group.parent = ge.parent from rfl, hp] at h
      replace h : (if (alookup store q).isSome = true then some q else none)
          = some p := h
      by_cases hq : (alookup store q).isSome = true
      · rw [if_pos hq] at h
        exact h
      · rw [if_neg hq] at h
        exact absurd h (by simp)

/-- The ownership invariant holds on the post-assignment heap: a child of
a bucket owner names that owner in its parent field. -/
theorem hier_own (m : GroupsMap) :
    ∀ p gp, alookup m.hierState.1 p = some gp → ∀ e ∈ gp.children,
      ∃ ge, alookup m.hierState.1 e = some ge ∧ ge.parent = some p := by
  intro p gp hp e he
  exact effParent_parent (hier_HS m p gp hp e he)

/-- With duplicate-free registry keys, every bucket — hence every children
list of the post-assignment heap — is duplicate-free. -/
theorem hier_chnd (m : GroupsMap) (hnd : (m.map.map Prod.fst).Nodup) :
    ∀ p gp, alookup m.hierState.1 p = some gp → gp.children.Nodup := by
  intro p gp hp
  rw [hierStore_alookup] at hp
  cases hm : alookup m.map p with
  | none =>
    rw [hm] at hp
    exact absurd hp (by simp)
  | some g0 =>
    rw [hm] at hp
    simp only [Option.map_some'] at hp
    have heq := Option.some.inj hp
    rw [← heq]
    exact hnd.filter _

/-- C10: during cycle breaking, every cut finds the element's parent
registered (the bucket pass only attaches a node under a registered
parent, and the walk invariants keep every node that can still be
revisited attached), so `buildHierarchy` — modulo fuel — never raises a
Python error: no parent lookup at a cut dereferences an absent node, and
the rebuild pass finds every collected root. -/
theorem C10_cut_parent_registered (m : GroupsMap)
    (hnd : (m.map.map Prod.fst).Nodup) :
    m.buildHierarchyFull ≠ Except.error TravErr.pyError := by
  intro hcon
  cases hv : collectRoots (buildFuel m) m.hierState.1 [] m.hierState.2 with
  | none =>
    have heq : m.buildHierarchyFull = Except.error TravErr.fuelOut := by
      simp [GroupsMap.buildHierarchyFull, hv]
    rw [heq] at hcon
    exact TravErr.noConfusion (Except.error.inj hcon)
  | some valid =>
    have hkeysnd : (m.hierState.1.map Prod.fst).Nodup := by
      rw [hierStore_keys]
      exact hnd
    have hcyc : CycInv (m.hierState.1.map Prod.fst)
        (cyclesList m.hierState.1 valid) ⟨m.hierState.1, m.hierState.2, []⟩ := by
      refine ⟨rfl, hier_own m, hier_chnd m hnd, ?_, ?_⟩
      · intro r hr
        exact (hier_roots m r hr).1
      · intro x hx
        exact absurd hx (List.not_mem_nil x)
    have hremnd : (cyclesList m.hierState.1 valid).Nodup := hkeysnd.filter _
    have hremsub : ∀ r ∈ cyclesList m.hierState.1 valid,
        r ∈ m.hierState.1.map Prod.fst := by
      intro r hr
      exact List.mem_of_mem_filter hr
    obtain ⟨hCne, hCok⟩ := cycle_safe (m.hierState.1.map Prod.fst)
      (cyclesList m.hierState.1 valid) (buildFuel m)
      ⟨m.hierState.1, m.hierState.2, []⟩ hcyc hremnd hremsub
    cases hcl : cycleLoop (buildFuel m) ⟨m.hierState.1, m.hierState.2, []⟩
        (cyclesList m.hierState.1 valid) with
    | error err =>
      have herr : err ≠ TravErr.pyError := by
        intro hc
        rw [hc] at hcl
        exact hCne hcl
      have heq : m.buildHierarchyFull = Except.error err := by
        simp [GroupsMap.buildHierarchyFull, hv, hcl]
      rw [heq] at hcon
      exact herr (Except.error.inj hcon)
    | ok S =>
      obtain ⟨hSkeys, hSroots⟩ := hCok S hcl
      obtain ⟨acc2, hacc⟩ := rebuild_ok S.store S.roots []
        (fun r hr => mem_keys_lookup hSkeys (hSroots r hr))
      have heq : m.buildHierarchyFull =
          Except.ok ({ m with map := acc2 }, S.store) := by
        simp [GroupsMap.buildHierarchyFull, hv, hcl, hacc]
      rw [heq] at hcon
      exact Except.noConfusion hcon

/-! ## C1: the forest postcondition fails on the code -/

/-- A six-node registry, parents already resolved to internal ids: a
2-cycle `A ↔ B` with `x` (child of `A`) carrying subtree `y`, and `z`
(child of `B`) carrying subtree `w`; insertion order `x, z, A, B, y, w`. -/
def m6cycle : GroupsMap :=
  ⟨[("x", ⟨"x", "ex", "x", "", some "A", []⟩),
    ("z", ⟨"z", "ez", "z", "", some "B", []⟩),
    ("A", ⟨"A", "eA", "A", "", some "B", []⟩),
    ("B", ⟨"B", "eB", "B", "", some "A", []⟩),
    ("y", ⟨"y", "ey", "y", "", some "x", []⟩),
    ("w", ⟨"w", "ew", "w", "", some "z", []⟩)], []⟩

/-- C1 divergence witness: on `m6cycle` (6 nodes), `buildHierarchy`
finishes with id index `{x, z}`, where `x` reaches only `y` and `z` only
`w` — 4 nodes in total instead of 6 — while on the final heap `A` and `B`
are still each other's single child and parent: the 2-cycle survives,
detached from every root, so the registry is not a forest covering all
nodes and the node count is not preserved. -/
theorem C1_forest_postcondition_fails :
    m6cycle.map.length = 6 ∧
    (m6cycle.buildHierarchyFull.toOption.map fun p => p.1.keysList) = some ["x", "z"] ∧
    (m6cycle.buildHierarchyFull.toOption.map fun p =>
        p.1.keysList.map fun r => ((alookup p.2 r).map Group.children).getD []) =
      some [["y"], ["w"]] ∧
    (m6cycle.buildHierarchyFull.toOption.map fun p =>
        ["y", "w"].map fun r => ((alookup p.2 r).map Group.children).getD []) =
      some [[], []] ∧
    (m6cycle.buildHierarchyFull.toOption.bind fun p => alookup p.2 "A") =
      some ⟨"A", "eA", "A", "", some "B", ["B"]⟩ ∧
    (m6cycle.buildHierarchyFull.toOption.bind fun p => alookup p.2 "B") =
      some ⟨"B", "eB", "B", "", some "A", ["A"]⟩ := by
  decide

/-! ## C3: the visited set is shared, not per-walk -/

/-- A three-node parent cycle `a → c → b → a` (each node's parent is the
next), insertion order `a, b, c`. -/
def m3cycle : GroupsMap :=
  ⟨[("a", ⟨"a", "ea", "a", "", some "c", []⟩),
    ("b", ⟨"b", "eb", "b", "", some "a", []⟩),
    ("c", ⟨"c", "ec", "c", "", some "b", []⟩)], []⟩

/-- C3 divergence witness: with the source's shared visited dictionary the
walk from `b` sees `b` already visited (marked during the walk from `a`)
and promotes it to a second root, yielding id index `{a, b}`; with the
freshly-initialized per-walk visited set the spec requires, the same input
yields the single root `a`. -/
theorem C3_shared_vlist_not_fresh :
    (m3cycle.buildHierarchyE.toOption.map GroupsMap.keysList) = some ["a", "b"] ∧
    (m3cycle.buildHierarchyFreshE.toOption.map GroupsMap.keysList) = some ["a"] := by
  decide

/-! ## C4: the valid set excludes childless nodes -/

/-- A registry holding a single childless root. -/
def singleRoot : GroupsMap := ⟨[("r", ⟨"r", "er", "r", "", none, []⟩)], []⟩

/-- C4 counterexample: on a registry with one childless root, the
reachability pass collects nothing (`_collectTree` returns before appending
a childless node), so the complement of `valid` is `{r}` even though the
set of cycle participants is empty — the complement is not exactly the
cycle participants. -/
theorem C4_complement_counterexample :
    singleRoot.validOf = some [] ∧
    cyclesList singleRoot.hierState.1 [] = ["r"] ∧
    (singleRoot.hierState.1.map Prod.fst).filter
        (fun k => cycleParticipant singleRoot.hierState.1 k) = [] ∧
    (["r"] : List String) ≠ [] := by
  decide

theorem singleRoot_childless : childrenAt singleRoot.hierState.1 "r" = [] := by decide

theorem singleRoot_key : "r" ∈ singleRoot.hierState.1.map Prod.fst := by decide

/-- Witness for C4 (amended) on the single-childless-root registry: the
valid set is empty and the complement contains the root. -/
theorem C4_valid_characterization_witness :
    ∃ v, GroupsMap.validOf singleRoot = some v ∧
      ("r" ∉ v ∧ "r" ∈ cyclesList singleRoot.hierState.1 v) := by
  obtain ⟨v, hv, hiff, hc⟩ := C4_valid_characterization singleRoot
  refine ⟨v, hv, ?_, ?_⟩
  · intro hr
    exact ((hiff "r").mp hr).2 singleRoot_childless
  · exact (hc "r").mpr ⟨singleRoot_key, Or.inr singleRoot_childless⟩

/-! ## C5: a self-loop node need not end childless -/

/-- A self-loop `X` (its own parent) together with a second node `Y` whose
parent is `X`, insertion order `X, Y`. -/
def selfLoopPair : GroupsMap :=
  ⟨[("X", ⟨"X", "eX", "X", "", some "X", []⟩),
    ("Y", ⟨"Y", "eY", "Y", "", some "X", []⟩)], []⟩

/-- C5 counterexample: after `buildHierarchy` on `selfLoopPair`, the
self-loop node `X` is a root but its children list is `["Y"]`, not empty —
only the self-reference is removed, other children stay. -/
theorem C5_selfloop_counterexample :
    (selfLoopPair.buildHierarchyE.toOption.bind fun r => alookup r.map "X").map
        Group.children = some ["Y"] ∧
    some ["Y"] ≠ some ([] : List String) := by
  decide

/-- C5 (amended): for a registry whose single node names itself as parent
(a cycle of length one), `buildHierarchy` leaves the id index containing
exactly that node, childless and with parent none.  (In a larger registry a
self-loop node is not guaranteed a childless root: only its self-reference
is removed from its children, and with the shared visited dictionary it may
not be promoted at all.) -/
theorem C5_selfloop_singleton (g : Group) (hp : g.parent = some g.gid)
    (gm : List (String × Option String)) :
    GroupsMap.buildHierarchyE ⟨[(g.gid, g)], gm⟩ =
      .ok ⟨[(g.gid, { g with parent := none, children := [] })], gm⟩ := by
  simp [GroupsMap.buildHierarchyE, GroupsMap.buildHierarchyFull, GroupsMap.hierState,
    bucketPass, bucketStep, GroupsMap.keysList, GroupsMap.get, GroupsMap.has, alookup,
    hp, pappend, assignChildrenPass, plookup, buildFuel, collectRoots, collectTree,
    cyclesList, cycleLoop, traverse, travLoop, storeUpdate, rebuildLoop, ainsert,
    List.erase_cons_head, Except.map]

/-- Witness for C5 (amended) on a concrete one-node self-loop registry. -/
theorem C5_selfloop_singleton_witness :
    GroupsMap.buildHierarchyE ⟨[("s", ⟨"s", "es", "s", "", some "s", []⟩)], []⟩ =
      .ok ⟨[("s", ⟨"s", "es", "s", "", none, []⟩)], []⟩ :=
  C5_selfloop_singleton ⟨"s", "es", "s", "", some "s", []⟩ rfl []

/-- Witness for C2 on a concrete two-record input sequence. -/
theorem C2_pipeline_deterministic_witness :
    (assignAll [⟨"a", "ea", "", "", none, []⟩, ⟨"b", "eb", "", "", some "ea", []⟩]).keysList =
      insertionOrderIds [⟨"a", "ea", "", "", none, []⟩, ⟨"b", "eb", "", "", some "ea", []⟩] ∧
    pipeline [⟨"a", "ea", "", "", none, []⟩, ⟨"b", "eb", "", "", some "ea", []⟩] =
      pipeline [⟨"a", "ea", "", "", none, []⟩, ⟨"b", "eb", "", "", some "ea", []⟩] :=
  C2_pipeline_deterministic _ _ rfl


/-- Witness for C10 on the concrete three-node cycle registry: its keys
are duplicate-free and its build raises no Python error. -/
theorem C10_cut_parent_registered_witness :
    (m3cycle.map.map Prod.fst).Nodup ∧
      m3cycle.buildHierarchyFull ≠ Except.error TravErr.pyError :=
  ⟨by decide, C10_cut_parent_registered m3cycle (by decide)⟩

end Pulsar
